import Mathlib

/-!
Verification of the truckeefs block-cache core against its specification.

The definitions below are a shallow embedding of the Python sources:

* `ceildiv`, `block_range`        — src/lib/block/Utils.py
* `BlockStorage` and its methods  — src/lib/block/Storage.py
* `BlockCachedFile` and methods   — src/lib/block/Cache.py
* `GetRedisInodeValue` / `SetRedisInodeValue` — src/lib/RiverDelta.py
* the keep/unlink loop of `_restrict_size` — src/lib/cachedb.py

Bytes are modelled as `List Nat`; Python byte strings support clamped
slicing, which `pySlice` reproduces.  All indices and sizes that the claims
quantify over are non-negative, so `Nat` arithmetic is used where Python
uses arbitrary integers (Python floor division and `divmod` agree with
`Nat` division and modulus on non-negative operands).  `Int` is kept where
negative values actually flow: block-map sentinel entries, `ceildiv` whose
`a - 1` can be negative, and the index-validation paths that reject
negative indices.
-/
abbrev Bytes := List Nat

/-- Python slice `data[a:b]` for `0 ≤ a ≤ b`: clamped at the end of the list. -/
def pySlice (data : Bytes) (a b : Nat) : Bytes :=
  (data.drop a).take (b - a)

/-- `ceildiv(a, b) = 1 + (a-1)//b` from src/lib/block/Utils.py; Python `//`
is floor division, `Int.fdiv`. -/
def ceildiv (a b : Int) : Int :=
  1 + (a - 1).fdiv b

/-- `ceildiv` at the non-negative arguments the cache layer passes it. -/
def cdN (a b : Nat) : Nat :=
  (ceildiv a b).toNat

/-! ### `block_range` (src/lib/block/Utils.py)

Python computes the clamped length, the `divmod` pairs for the start and
end positions and the end-of-file promotion in sequence.  `clampLen` is the
clamp (`length = max(min(last_pos - offset, length), 0)`), `promoEnd` is
the `(end_block, end_pos)` pair after the EOF promotion
(`if offset + length == last_pos and end_pos > 0`). -/
def clampLen (offset length : Nat) : Option Nat → Nat
  | some lp => max (min (lp - offset) length) 0
  | none => length

def promoEnd (offset L block_size : Nat) (last_pos : Option Nat) : Nat × Nat :=
  if last_pos = some (offset + L) ∧ 0 < (offset + L) % block_size
  then ((offset + L) / block_size + 1, 0)
  else ((offset + L) / block_size, (offset + L) % block_size)

def block_range (offset length block_size : Nat) (last_pos : Option Nat) :
    Option (Nat × Nat × Nat) × Option (Nat × Nat) × Option (Nat × Nat) :=
  if clampLen offset length last_pos = 0 then (none, none, none)
  else if offset / block_size
      = (promoEnd offset (clampLen offset length last_pos) block_size last_pos).1 then
    if offset % block_size
        = (promoEnd offset (clampLen offset length last_pos) block_size last_pos).2
    then (none, none, none)
    else (some (offset / block_size, offset % block_size,
            (promoEnd offset (clampLen offset length last_pos) block_size last_pos).2),
          none, none)
  else
    (if offset % block_size = 0 then none
       else some (offset / block_size, offset % block_size, block_size),
     if offset % block_size = 0 then
       some (offset / block_size,
         (promoEnd offset (clampLen offset length last_pos) block_size last_pos).1)
     else if offset / block_size + 1
         < (promoEnd offset (clampLen offset length last_pos) block_size last_pos).1 then
       some (offset / block_size + 1,
         (promoEnd offset (clampLen offset length last_pos) block_size last_pos).1)
     else none,
     if (promoEnd offset (clampLen offset length last_pos) block_size last_pos).2 = 0
       then none
       else some ((promoEnd offset (clampLen offset length last_pos) block_size last_pos).1,
         (promoEnd offset (clampLen offset length last_pos) block_size last_pos).2))

/-- The byte ranges designated by the three components of a `block_range`
result, concatenated: `start` designates `block[start_pos:end_pos]` of its
block, `mid` whole blocks, `end` the prefix `block[:end_pos]`.  This is the
re-concatenation used by the specification's BR-1 invariant (and by
`test/TestBlockCache.py`, `_check_block_slice`). -/
def sliceOf (data : Bytes) (bs : Nat)
    (r : Option (Nat × Nat × Nat) × Option (Nat × Nat) × Option (Nat × Nat)) : Bytes :=
  (match r.1 with
   | some (i, a, b) => pySlice data (i * bs + a) (i * bs + b)
   | none => []) ++
  (match r.2.1 with
   | some (a, b) =>
     ((List.range' a (b - a)).map (fun i => pySlice data (i * bs) ((i + 1) * bs))).flatten
   | none => []) ++
  (match r.2.2 with
   | some (i, e) => pySlice data (i * bs) (i * bs + e)
   | none => [])

inductive PyErr where
  | valueError : PyErr
  | keyError : PyErr
  | ioError : Nat → PyErr
deriving DecidableEq, Repr

def errnoEIO : Nat := 5

def BLOCK_UNALLOCATED : Int := -1

def BLOCK_ZERO : Int := -2

def zeroBlock (bs : Nat) : Bytes := List.replicate bs 0

/-- Write `d` at byte position `pos` of file `f`, zero-filling any gap
between the current end of file and `pos` (POSIX seek-past-end). -/
def writeAt (f : Bytes) (pos : Nat) (d : Bytes) : Bytes :=
  let base := f ++ List.replicate (pos - f.length) 0
  base.take pos ++ d ++ base.drop (pos + d.length)

def fileRead (f : Bytes) (pos n : Nat) : Bytes := (f.drop pos).take n

/-- POSIX `ftruncate`: cut, or extend with zeros. -/
def fileTruncate (f : Bytes) (n : Nat) : Bytes :=
  f.take n ++ List.replicate (n - f.length) 0

/-- Entry of a block map at a logical index, `UNALLOCATED` out of range. -/
def mapGet (m : List Int) (i : Nat) : Int := m.getD i BLOCK_UNALLOCATED

structure BlockStorage where
  file : Bytes
  block_size : Nat
  block_map : List Int
  free_map : List Nat
  free_block_idx : Nat
deriving DecidableEq, Repr

namespace BlockStorage

/-- `heapq.heappush`; the heap is modelled as its sorted element list, so
that `heappop` (= take the head) returns the minimum exactly as `heapq`
does. -/
def heappushMin (l : List Nat) (x : Nat) : List Nat :=
  match l with
  | [] => [x]
  | y :: ys => if x ≤ y then x :: y :: ys else y :: heappushMin ys x

/-- `_reconstruct_free_map`: slots below `max(block_map)+1` not referenced
by any entry, ascending (the heapified enumeration order), and the next
never-used slot index. -/
def reconstruct_free_map (block_map : List Int) : List Nat × Nat :=
  match block_map with
  | [] => ([], 0)
  | x :: xs =>
    let max_block := xs.foldl max x
    if max_block < 0 then ([], 0)
    else
      (((List.range (max_block.toNat + 1)).filter
          (fun j => ¬ block_map.contains ((j : Nat) : Int))), max_block.toNat + 1)

/-- `BlockStorage(file, block_size)`: fresh instance; the in-memory map
starts empty regardless of the data file's contents. -/
def init (file : Bytes) (block_size : Nat) : BlockStorage :=
  { file := file, block_size := block_size, block_map := [],
    free_map := (reconstruct_free_map []).1,
    free_block_idx := (reconstruct_free_map []).2 }

def get_free_block_idx (s : BlockStorage) : Nat × BlockStorage :=
  match s.free_map with
  | x :: xs => (x, { s with free_map := xs })
  | [] => (s.free_block_idx, { s with free_block_idx := s.free_block_idx + 1 })

def add_free_block_idx (s : BlockStorage) (idx : Nat) : BlockStorage :=
  { s with free_map := heappushMin s.free_map idx }

def truncate_free_map (s : BlockStorage) (end_block : Nat) : BlockStorage :=
  { s with free_block_idx := end_block,
           free_map := s.free_map.filter (fun x => x < end_block) }

/-- Logical block `i` holds data or the `ZERO` sentinel (`__contains__` at
a valid index). -/
def Present (s : BlockStorage) (i : Nat) : Prop :=
  mapGet s.block_map i ≠ BLOCK_UNALLOCATED

instance (s : BlockStorage) (i : Nat) : Decidable (Present s i) := by
  unfold Present
  infer_instance

/-- `__setitem__`, success path, at a non-negative index (the `Except`
wrapper `setitemE` below adds the error checks). -/
def set (s : BlockStorage) (i : Nat) (data : Option Bytes) : BlockStorage :=
  let s1 := { s with
    block_map := s.block_map ++ List.replicate (i + 1 - s.block_map.length) BLOCK_UNALLOCATED }
  if data = none ∨ data = some (zeroBlock s1.block_size) then
    let e := mapGet s1.block_map i
    let s2 := if 0 ≤ e then add_free_block_idx s1 e.toNat else s1
    { s2 with block_map := s2.block_map.set i BLOCK_ZERO }
  else
    match data with
    | some d =>
      let e := mapGet s1.block_map i
      let p : Nat × BlockStorage := if 0 ≤ e then (e.toNat, s1) else get_free_block_idx s1
      let s2 := { p.2 with block_map := p.2.block_map.set i ((p.1 : Nat) : Int) }
      let d2 := if d.length < s2.block_size ∧ s2.block_size * p.1 + d.length < s2.file.length
                then d ++ List.replicate (s2.block_size - d.length) 0 else d
      { s2 with file := writeAt s2.file (s2.block_size * p.1) d2 }
    | none => s1

/-- `__getitem__`, success path at a present index. -/
def get (s : BlockStorage) (i : Nat) : Except PyErr Bytes :=
  if ¬ Present s i then .error .keyError
  else
    let block_idx := mapGet s.block_map i
    if 0 ≤ block_idx then
      let block := fileRead s.file (s.block_size * block_idx.toNat) s.block_size
      .ok (block ++ List.replicate (s.block_size - block.length) 0)
    else if block_idx = BLOCK_ZERO then .ok (zeroBlock s.block_size)
    else .error (.ioError errnoEIO)

/-- `truncate(num_blocks)`. -/
def truncate (s : BlockStorage) (num_blocks : Nat) : BlockStorage :=
  let bm := s.block_map.take num_blocks
  let end_block : Nat := match bm with
    | [] => 0
    | x :: xs => (max 0 (xs.foldl max x + 1)).toNat
  truncate_free_map
    { s with block_map := bm, file := fileTruncate s.file (s.block_size * end_block) }
    end_block

/-- `__contains__` with Python's index validation. -/
def containsE (s : BlockStorage) (idx : Int) : Except PyErr Bool :=
  if ¬ 0 ≤ idx then .error .valueError
  else if (s.block_map.length : Int) ≤ idx then .ok false
  else .ok (decide (mapGet s.block_map idx.toNat ≠ BLOCK_UNALLOCATED))

/-- `__getitem__` with Python's index validation and error classification.
Mirrors: `KeyError` for an absent index, a zero-padded file read for a slot
entry, the zero block for the `ZERO` sentinel, `IOError(EIO)` otherwise. -/
def getitemE (s : BlockStorage) (idx : Int) : Except PyErr Bytes := do
  let c ← s.containsE idx
  if ¬ c then .error .keyError
  else
    let block_idx := mapGet s.block_map idx.toNat
    if 0 ≤ block_idx then
      let block := fileRead s.file (s.block_size * block_idx.toNat) s.block_size
      .ok (block ++ List.replicate (s.block_size - block.length) 0)
    else if block_idx = BLOCK_ZERO then .ok (zeroBlock s.block_size)
    else .error (.ioError errnoEIO)

/-- `__setitem__` with Python's index and size validation.  (On the
oversized-data raise Python has already padded `block_map` with
`UNALLOCATED` entries; the `Except` value drops that partially mutated
object, which no claim inspects.) -/
def setitemE (s : BlockStorage) (idx : Int) (data : Option Bytes) :
    Except PyErr BlockStorage :=
  if ¬ 0 ≤ idx then .error .valueError
  else if data = none ∨ data = some (zeroBlock s.block_size) then
    .ok (s.set idx.toNat data)
  else
    match data with
    | some d =>
      if s.block_size < d.length then .error .valueError
      else .ok (s.set idx.toNat data)
    | none => .error .valueError

/-- The amended C2 invariant: no physical slot is referenced twice, the
referenced slots, the free map and `[free_block_idx, ∞)` are pairwise
disjoint, and the free map holds no duplicates.  (The three classes need
not cover the slot space: `truncate` orphans slots referenced only by
discarded entries.) -/
def Inv (s : BlockStorage) : Prop :=
  (∀ i j : Nat, 0 ≤ mapGet s.block_map i →
    mapGet s.block_map i = mapGet s.block_map j → i = j) ∧
  (∀ i : Nat, 0 ≤ mapGet s.block_map i →
    (mapGet s.block_map i).toNat ∉ s.free_map ∧
    (mapGet s.block_map i).toNat < s.free_block_idx) ∧
  (∀ p ∈ s.free_map, p < s.free_block_idx) ∧
  s.free_map.Nodup

/-- States reachable from a fresh `BlockStorage` by successful
`__setitem__` calls (non-negative index, data at most one block long) and
`truncate` calls. -/
inductive Reach : BlockStorage → Prop where
  | init : ∀ (file : Bytes) (bs : Nat), Reach (init file bs)
  | set : ∀ {s : BlockStorage} (i : Nat) (data : Option Bytes), Reach s →
      (∀ d, data = some d → d.length ≤ s.block_size) → Reach (s.set i data)
  | trunc : ∀ {s : BlockStorage} (n : Nat), Reach s → Reach (s.truncate n)

/-- The claim's full partition property: at most one reference per slot,
pairwise disjointness, and coverage of the whole slot space. -/
def ClaimedPartition (s : BlockStorage) : Prop :=
  (∀ i j : Nat, 0 ≤ mapGet s.block_map i →
    mapGet s.block_map i = mapGet s.block_map j → i = j) ∧
  (∀ i : Nat, 0 ≤ mapGet s.block_map i →
    (mapGet s.block_map i).toNat ∉ s.free_map ∧
    (mapGet s.block_map i).toNat < s.free_block_idx) ∧
  (∀ p ∈ s.free_map, p < s.free_block_idx) ∧
  (∀ p : Nat, (∃ i, i < s.block_map.length ∧ mapGet s.block_map i = (p : Int)) ∨
    p ∈ s.free_map ∨ s.free_block_idx ≤ p)

end BlockStorage

/-! ### Block-storage state blob (save_state / restore_state)

The on-disk blob is `"BLK2" || block_size:u64le || compressed_len:u64le ||
DEFLATE(block_map as little-endian i64 array)`.  `natToLE`/`leToNat` model
`struct.pack('<Q')`/`unpack`, `encodeI64`/`decodeI64` the C `long` entries
of `array.array('l')` (64-bit two's complement, little endian).  zlib is
modelled as an identity pair: `decompress (compress x) = x` is the zlib
contract, and nothing in the claims depends on the encoded form. -/
def natToLE : Nat → Nat → Bytes
  | 0, _ => []
  | k + 1, n => n % 256 :: natToLE k (n / 256)

def leToNat : Bytes → Nat
  | [] => 0
  | b :: bs => b + 256 * leToNat bs

def encodeI64 (z : Int) : Bytes := natToLE 8 (z % (2 ^ 64 : Int)).toNat

def decodeI64 (b : Bytes) : Int :=
  if leToNat b ≥ 2 ^ 63 then (leToNat b : Int) - 2 ^ 64 else (leToNat b : Int)

def tobytesI64 (l : List Int) : Bytes := (l.map encodeI64).flatten

def frombytesI64 : Bytes → List Int
  | [] => []
  | x :: xs => decodeI64 ((x :: xs).take 8) :: frombytesI64 ((x :: xs).drop 8)
termination_by b => b.length
decreasing_by simp; omega

def zlibCompress (b : Bytes) : Bytes := b

def zlibDecompress (b : Bytes) : Except PyErr Bytes := .ok b

namespace BlockStorage

def save_state (s : BlockStorage) : Bytes :=
  [66, 76, 75, 50] ++ natToLE 8 s.block_size ++
    natToLE 8 (zlibCompress (tobytesI64 s.block_map)).length ++
    zlibCompress (tobytesI64 s.block_map)

def restore_state (file : Bytes) (state_file : Bytes) : Except PyErr BlockStorage :=
  if state_file.take 4 ≠ [66, 76, 75, 50] then .error .valueError
  else
    match zlibDecompress ((state_file.drop 20).take
        (leToNat (((state_file.drop 4).take 16).drop 8))) with
    | .error _ => .error .valueError
    | .ok raw =>
      .ok { file := file,
            block_size := leToNat (((state_file.drop 4).take 16).take 8),
            block_map := frombytesI64 raw,
            free_map := (reconstruct_free_map (frombytesI64 raw)).1,
            free_block_idx := (reconstruct_free_map (frombytesI64 raw)).2 }

end BlockStorage

/-! ### BlockCachedFile (src/lib/block/Cache.py)

`pad_file`, `receive_cached_data`, `truncate`, `write`, `read` and
`pre_read` are modelled method by method.  The `start`/`mid`/`end`
processing blocks of each method become the helper functions below, one
per Python code block, applied to the corresponding component of
`block_range`.  Methods whose block lookups can raise `KeyError` (reads of
blocks that must be fetched first) return `Except`; `__setitem__` calls
whose data is a slice of at most `block_size` bytes use the pure `set`
(`setitemE_nat` below shows the two agree whenever the data fits). -/
structure BlockCachedFile where
  storage : BlockStorage
  size : Nat
  cache_size : Nat
  first_uncached_block : Nat
deriving DecidableEq, Repr

namespace BlockCachedFile

def block_size (t : BlockCachedFile) : Nat := t.storage.block_size

def init (f : Bytes) (initial_cache_size : Nat) (bs : Nat) : BlockCachedFile :=
  { storage := BlockStorage.init f bs, size := initial_cache_size,
    cache_size := initial_cache_size, first_uncached_block := 0 }

def padStart (st : BlockStorage) : Option (Nat × Nat × Nat) → BlockStorage
  | some (i, sp, _) => if sp = 0 then st.set i none else st
  | none => st

def padMid (st : BlockStorage) : Option (Nat × Nat) → BlockStorage
  | some (a, b) => (List.range' a (b - a)).foldl (fun acc j => acc.set j none) st
  | none => st

def padEnd (st : BlockStorage) : Option (Nat × Nat) → BlockStorage
  | some (i, _) => st.set i none
  | none => st

def pad_file (t : BlockCachedFile) (new_size : Nat) : BlockCachedFile :=
  if new_size ≤ t.size then t
  else
    { t with
      size := new_size,
      storage := padEnd
        (padMid
          (padStart t.storage (block_range t.size (new_size - t.size) t.block_size none).1)
          (block_range t.size (new_size - t.size) t.block_size none).2.1)
        (block_range t.size (new_size - t.size) t.block_size none).2.2 }

/-- The block-commit loop of `receive_cached_data`: walk the `mid` blocks,
writing each one that is still absent, and advance the consumed-byte
cursor `i` by `min(block_size, data_size - i)`. -/
def receiveLoop (bs : Nat) (data : Bytes) (data_size : Nat) (a n : Nat)
    (st : BlockStorage) (i : Nat) : BlockStorage × Nat :=
  (List.range' a n).foldl
    (fun q j =>
      ((if BlockStorage.Present q.1 j then q.1
        else q.1.set j ((data.drop q.2).take bs)),
       q.2 + min bs (data_size - q.2)))
    (st, i)

def receive_cached_data (t : BlockCachedFile) (offset : Nat) (data_list : List Bytes) :
    BlockCachedFile × (Nat × List Bytes) :=
  match block_range offset ((data_list.map List.length).sum) t.block_size
      (some t.cache_size) with
  | (_, none, _) => (t, (offset, data_list))
  | (st, some (a, b), _) =>
    let data_size := (data_list.map List.length).sum
    let data := data_list.flatten
    let i0 : Nat := match st with
      | some (_, sp, _) => t.block_size - sp
      | none => 0
    let p := receiveLoop t.block_size data data_size a (b - a) t.storage i0
    ({ t with
        storage := p.1,
        first_uncached_block :=
          if a ≤ t.first_uncached_block
          then max t.first_uncached_block b
          else t.first_uncached_block },
     (offset + p.2, if p.2 < data_size then [data.drop p.2] else []))

def truncate (t : BlockCachedFile) (size : Nat) : BlockCachedFile :=
  let t1 :=
    if size < t.size then
      { t with storage := t.storage.truncate (cdN size t.block_size), size := size }
    else if t.size < size then pad_file t size else t
  { t1 with cache_size := min t1.cache_size size }

def writeStart (st : BlockStorage) (data : Bytes) :
    Option (Nat × Nat × Nat) → Except PyErr (BlockStorage × Nat)
  | some (sb, sp, ep) => do
      let block ← st.get sb
      let st2 ← st.setitemE (sb : Int)
        (some (block.take sp ++ data.take (ep - sp) ++ block.drop ep))
      pure (st2, ep - sp)
  | none => pure (st, 0)

def writeMid (bs : Nat) (data : Bytes) (q : BlockStorage × Nat) :
    Option (Nat × Nat) → BlockStorage × Nat
  | some (a, b) => (List.range' a (b - a)).foldl
      (fun q j => (q.1.set j ((data.drop q.2).take bs), q.2 + bs)) q
  | none => q

def writeEnd (data : Bytes) (q : BlockStorage × Nat) :
    Option (Nat × Nat) → Except PyErr BlockStorage
  | some (eb, ep) => do
      let block ← q.1.get eb
      q.1.setitemE (eb : Int) (some (data.drop q.2 ++ block.drop ep))
  | none => pure q.1

def write (t : BlockCachedFile) (offset : Nat) (data : Bytes) :
    Except PyErr BlockCachedFile :=
  let t1 := if t.size < offset then pad_file t offset else t
  if data.length = 0 then .ok t1
  else
    let t2 := pad_file t1 (offset + data.length)
    do
      let q1 ← writeStart t2.storage data
        (block_range offset data.length t1.block_size none).1
      let q2 := writeMid t1.block_size data q1
        (block_range offset data.length t1.block_size none).2.1
      let st ← writeEnd data q2
        (block_range offset data.length t1.block_size none).2.2
      .ok { t2 with storage := st }

def readPart (st : BlockStorage) :
    Option (Nat × Nat × Nat) → Except PyErr Bytes
  | some (sb, sp, ep) => do
      let b ← st.get sb
      pure (pySlice b sp ep)
  | none => pure []

def readMid (st : BlockStorage) : Option (Nat × Nat) → Except PyErr Bytes
  | some (a, b) => (List.range' a (b - a)).foldlM
      (fun acc j => do
        let blk ← st.get j
        pure (acc ++ blk)) ([] : Bytes)
  | none => pure []

def readEnd (st : BlockStorage) : Option (Nat × Nat) → Except PyErr Bytes
  | some (eb, ep) => do
      let b ← st.get eb
      pure (b.take ep)
  | none => pure []

def read (t : BlockCachedFile) (offset length0 : Nat) : Except PyErr Bytes :=
  let length := min (t.size - offset) length0
  if length = 0 then .ok []
  else do
    let d1 ← readPart t.storage (block_range offset length t.block_size none).1
    let d2 ← readMid t.storage (block_range offset length t.block_size none).2.1
    let d3 ← readEnd t.storage (block_range offset length t.block_size none).2.2
    .ok (d1 ++ d2 ++ d3)

def pre_read (t : BlockCachedFile) (offset length0 : Nat) : Option (Nat × Nat) :=
  let cache_end := cdN t.cache_size t.block_size * t.block_size
  let length := min length0 (cache_end - offset)
  if length = 0 then none
  else
    let start_block := offset / t.block_size
    let end_block := cdN (offset + length) t.block_size
    let j0 := max start_block t.first_uncached_block
    let j := j0 + ((List.range' j0 (end_block - j0)).takeWhile
        (fun k => decide (BlockStorage.Present t.storage k))).length
    if end_block ≤ j then none
    else
      let e := ((List.range' (j + 1) (end_block - (j + 1))).find?
          (fun k => decide (BlockStorage.Present t.storage k))).getD end_block
      if e ≤ j then none
      else if j * t.block_size < t.cache_size then
        some (j * t.block_size, min (e * t.block_size) t.cache_size - j * t.block_size)
      else none

end BlockCachedFile

/-! ### RiverDelta Redis state helpers (src/lib/RiverDelta.py)

The Redis database is modelled as a partial map from keys to strings.
Network failures are not modelled: every Redis call succeeds, which is the
best case for the claim under scrutiny. -/
abbrev RedisStore := String → Option String

def redisKey (inode key : String) : String := inode ++ ":" ++ key

/-- `GetRedisInodeValue` fetches the value into the local `ret`, but the
function body ends without a `return` statement on the success path, so
the caller always receives `None`. -/
def GetRedisInodeValue (store : RedisStore) (inode key : String) : Option String :=
  let _ret := store (redisKey inode key)
  none

/-- `SetRedisInodeValue`: with an expected value, the Lua script performs
the compare-and-set atomically (returning 1 on success, 0 otherwise) and
the function returns `result == 1 and GetRedisInodeValue(...) == value`;
without one, the key is set unconditionally and the function returns
`GetRedisInodeValue(...) == value`.  Returns the updated store and the
returned boolean. -/
def SetRedisInodeValue (store : RedisStore) (inode key value : String)
    (expectedValue : Option String) : RedisStore × Bool :=
  match expectedValue with
  | some expected =>
    if store (redisKey inode key) = some expected then
      let store2 : RedisStore :=
        fun k => if k = redisKey inode key then some value else store k
      (store2, decide (GetRedisInodeValue store2 inode key = some value))
    else
      (store, false)
  | none =>
    let store2 : RedisStore :=
      fun k => if k = redisKey inode key then some value else store k
    (store2, decide (GetRedisInodeValue store2 inode key = some value))

/-! ### CacheDB._restrict_size (src/lib/cachedb.py)

The keep/unlink loop over the entries sorted by decreasing cache score.
Scores are floats and the sort is not modelled; the loop is embedded over
the post-sort list of file sizes.  `restrict_size_keep` returns the sizes
of the files the loop keeps (the others are unlinked). -/
def restrict_size_keep (cache_size : Nat) : List Nat → Nat → List Nat
  | [], _ => []
  | sz :: rest, tot =>
    if cache_size < tot + sz then restrict_size_keep cache_size rest tot
    else sz :: restrict_size_keep cache_size rest (tot + sz)

namespace BlockStorage

/-- Every `block_map` entry is at least the `ZERO` sentinel: a slot index,
`ZERO`, or `UNALLOCATED` (no corrupted entries). -/
def MapOK (s : BlockStorage) : Prop :=
  ∀ i, BLOCK_ZERO ≤ mapGet s.block_map i

end BlockStorage

namespace BlockCachedFile

/-- The `BlockCachedFile` state invariant: a positive block size, no
corrupted map entries, `cache_size ≤ size`, every block below the
watermark `first_uncached_block` present (within the file's block span),
and every block past the cached area present (such blocks are created by
`_pad_file`, never fetched). -/
def InvB (t : BlockCachedFile) : Prop :=
  0 < t.block_size ∧ BlockStorage.MapOK t.storage ∧ t.cache_size ≤ t.size ∧
  (∀ i, i < t.first_uncached_block → i * t.block_size < t.size →
    BlockStorage.Present t.storage i) ∧
  (∀ i, t.cache_size ≤ i * t.block_size → i * t.block_size < t.size →
    BlockStorage.Present t.storage i)

/-- One mutating operation of `BlockCachedFile` (a successful `write`, a
`truncate`, or a `receive_cached_data`). -/
inductive StepB : BlockCachedFile → BlockCachedFile → Prop where
  | write : ∀ (t : BlockCachedFile) (off : Nat) (data : Bytes)
      (t' : BlockCachedFile), t.write off data = .ok t' → StepB t t'
  | trunc : ∀ (t : BlockCachedFile) (n : Nat), StepB t (t.truncate n)
  | receive : ∀ (t : BlockCachedFile) (off : Nat) (dl : List Bytes),
      StepB t (t.receive_cached_data off dl).1

/-- States reachable from a fresh `BlockCachedFile` (positive block size)
by mutating operations. -/
inductive ReachB : BlockCachedFile → Prop where
  | init : ∀ (f : Bytes) (c bs : Nat), 0 < bs → ReachB (init f c bs)
  | step : ∀ (t t' : BlockCachedFile), ReachB t → StepB t t' → ReachB t'

end BlockCachedFile

theorem cdN_eq (a b : Nat) (hb : 0 < b) : cdN a b = (a + b - 1) / b := by
  unfold cdN ceildiv
  cases a with
  | zero =>
    obtain ⟨c, rfl⟩ : ∃ c, b = c + 1 := ⟨b - 1, by omega⟩
    have h1 : ((0 : Nat) : Int) - 1 = Int.negSucc 0 := rfl
    have h2 : ((c + 1 : Nat) : Int) = Int.ofNat (c + 1) := rfl
    have h3 : (Int.negSucc 0).fdiv (Int.ofNat (c + 1)) = Int.negSucc (0 / (c + 1)) := rfl
    rw [h1, h2, h3, Nat.zero_div]
    have h4 : (1 + Int.negSucc 0) = 0 := rfl
    rw [h4]
    have h5 : (0 + (c + 1) - 1) / (c + 1) = 0 := Nat.div_eq_of_lt (by omega)
    rw [h5]
    rfl
  | succ n =>
    have h1 : ((n + 1 : Nat) : Int) - 1 = (n : Int) := by push_cast; ring
    rw [h1, ← Int.ofNat_fdiv]
    have h5 : n + 1 + b - 1 = n + b := by omega
    rw [h5, Nat.add_div_right _ hb]
    generalize n / b = k
    omega

theorem cdN_le_iff {b : Nat} (hb : 0 < b) (a n : Nat) : cdN a b ≤ n ↔ a ≤ n * b := by
  rw [cdN_eq a b hb, Nat.div_le_iff_le_mul_add_pred hb, Nat.mul_comm b n]
  generalize n * b = X
  omega

theorem lt_cdN_iff {b : Nat} (hb : 0 < b) (a n : Nat) : n < cdN a b ↔ n * b < a := by
  rw [← Nat.not_le, ← Nat.not_le, cdN_le_iff hb]

theorem le_cdN_mul {b : Nat} (hb : 0 < b) (a : Nat) : a ≤ cdN a b * b :=
  (cdN_le_iff hb a (cdN a b)).1 le_rfl

theorem cdN_mono {b : Nat} (hb : 0 < b) {a a' : Nat} (h : a ≤ a') : cdN a b ≤ cdN a' b := by
  rw [cdN_le_iff hb]
  exact le_trans h (le_cdN_mul hb a')

theorem div_le_cdN {b : Nat} (hb : 0 < b) (a : Nat) : a / b ≤ cdN a b := by
  rw [cdN_eq a b hb]
  exact Nat.div_le_div_right (by omega)

theorem cdN_mul_self {b : Nat} (hb : 0 < b) (n : Nat) : cdN (n * b) b = n := by
  refine Nat.le_antisymm ((cdN_le_iff hb _ n).2 le_rfl) ?h
  exact Nat.le_of_mul_le_mul_right (le_cdN_mul hb (n * b)) hb

theorem cdN_pos {b : Nat} (hb : 0 < b) {a : Nat} (ha : 0 < a) : 0 < cdN a b := by
  rw [lt_cdN_iff hb]
  omega

/-! ### Slicing helpers -/
theorem take_append_take_drop {α : Type} (l : List α) (m k : Nat) :
    l.take m ++ (l.drop m).take k = l.take (m + k) := by
  induction m generalizing l with
  | zero => simp
  | succ n ih =>
    cases l with
    | nil => simp
    | cons x xs =>
      simp only [List.take_succ_cons, List.drop_succ_cons, List.cons_append, Nat.succ_add]
      rw [ih]

theorem pySlice_append (d : Bytes) {a b c : Nat} (h1 : a ≤ b) (h2 : b ≤ c) :
    pySlice d a b ++ pySlice d b c = pySlice d a c := by
  unfold pySlice
  have hd : d.drop b = (d.drop a).drop (b - a) := by
    rw [List.drop_drop]
    congr 1
    omega
  rw [hd, take_append_take_drop]
  congr 1
  omega

theorem pySlice_self (d : Bytes) (a : Nat) : pySlice d a a = [] := by
  simp [pySlice]

theorem pySlice_congr (d : Bytes) {a b b' : Nat} (h : b - a = b' - a) :
    pySlice d a b = pySlice d a b' := by
  unfold pySlice
  rw [h]

theorem pySlice_clamp (d : Bytes) {a b c : Nat} (hb : d.length ≤ b) (hc : d.length ≤ c) :
    pySlice d a b = pySlice d a c := by
  unfold pySlice
  rw [List.take_of_length_le (by simp; omega), List.take_of_length_le (by simp; omega)]

theorem pySlice_length (d : Bytes) (a b : Nat) :
    (pySlice d a b).length = min (b - a) (d.length - a) := by
  simp [pySlice]

theorem midSlices (d : Bytes) (bs a n : Nat) :
    ((List.range' a n).map (fun i => pySlice d (i * bs) ((i + 1) * bs))).flatten =
      pySlice d (a * bs) ((a + n) * bs) := by
  induction n generalizing a with
  | zero => simp [pySlice_self]
  | succ n ih =>
    rw [List.range'_succ]
    simp only [List.map_cons, List.flatten_cons]
    rw [ih (a + 1)]
    rw [pySlice_append d (by nlinarith) (by nlinarith)]
    congr 2
    ring

theorem midSlices' (d : Bytes) (bs : Nat) {a b : Nat} (h : a ≤ b) :
    ((List.range' a (b - a)).map (fun i => pySlice d (i * bs) ((i + 1) * bs))).flatten =
      pySlice d (a * bs) (b * bs) := by
  rw [midSlices]
  congr 2
  omega

theorem promoEnd_spec {bs : Nat} (hbs : 0 < bs) (off L : Nat) (lp : Option Nat) :
    ((promoEnd off L bs lp).1 * bs + (promoEnd off L bs lp).2 = off + L ∧
      (promoEnd off L bs lp).2 < bs) ∨
    ((promoEnd off L bs lp).2 = 0 ∧ lp = some (off + L) ∧
      off + L ≤ (promoEnd off L bs lp).1 * bs ∧
      (promoEnd off L bs lp).1 * bs < off + L + bs ∧ 0 < (off + L) % bs) := by
  have hd := Nat.div_add_mod (off + L) bs
  have hm : (off + L) % bs < bs := Nat.mod_lt _ hbs
  have hc : bs * ((off + L) / bs) = ((off + L) / bs) * bs := Nat.mul_comm _ _
  by_cases hP : lp = some (off + L) ∧ 0 < (off + L) % bs
  · right
    have hval : promoEnd off L bs lp = ((off + L) / bs + 1, 0) := by
      simp [promoEnd, hP]
    rw [hval]
    show (0 : Nat) = 0 ∧ _ ∧ off + L ≤ ((off + L) / bs + 1) * bs ∧
      ((off + L) / bs + 1) * bs < off + L + bs ∧ 0 < (off + L) % bs
    have he : ((off + L) / bs + 1) * bs = ((off + L) / bs) * bs + bs := by ring
    exact ⟨rfl, hP.1, by rw [he]; omega, by rw [he]; omega, hP.2⟩
  · left
    have hval : promoEnd off L bs lp = ((off + L) / bs, (off + L) % bs) := by
      simp only [promoEnd, if_neg hP]
    rw [hval]
    show ((off + L) / bs) * bs + (off + L) % bs = off + L ∧ (off + L) % bs < bs
    exact ⟨by omega, hm⟩

theorem promoEnd_fst_ge (off L bs : Nat) (lp : Option Nat) :
    (off + L) / bs ≤ (promoEnd off L bs lp).1 := by
  unfold promoEnd
  split <;> simp

theorem promoEnd_promo_val {off L bs : Nat} {lp : Option Nat}
    (h : lp = some (off + L)) (h2 : 0 < (off + L) % bs) :
    promoEnd off L bs lp = ((off + L) / bs + 1, 0) := by
  simp [promoEnd, h, h2]

theorem block_range_zero (off len bs : Nat) (lp : Option Nat)
    (h : clampLen off len lp = 0) :
    block_range off len bs lp = (none, none, none) := by
  unfold block_range
  rw [if_pos h]

theorem block_range_single (off len bs : Nat) (lp : Option Nat)
    (hbs : 0 < bs) (hL : 0 < clampLen off len lp)
    (he : off / bs = (promoEnd off (clampLen off len lp) bs lp).1) :
    off % bs < (promoEnd off (clampLen off len lp) bs lp).2 ∧
    (promoEnd off (clampLen off len lp) bs lp).2 ≤ bs ∧
    (off / bs) * bs + off % bs = off ∧
    (off / bs) * bs + (promoEnd off (clampLen off len lp) bs lp).2
      = off + clampLen off len lp ∧
    block_range off len bs lp =
      (some (off / bs, off % bs, (promoEnd off (clampLen off len lp) bs lp).2),
        none, none) := by
  have hsb := Nat.div_add_mod off bs
  have hsp : off % bs < bs := Nat.mod_lt _ hbs
  have hcomm : bs * (off / bs) = (off / bs) * bs := Nat.mul_comm _ _
  have hspec := promoEnd_spec hbs off (clampLen off len lp) lp
  have hge := promoEnd_fst_ge off (clampLen off len lp) bs lp
  have hdivle : off / bs ≤ (off + clampLen off len lp) / bs :=
    Nat.div_le_div_right (by omega)
  have hnp : (promoEnd off (clampLen off len lp) bs lp).1 * bs +
      (promoEnd off (clampLen off len lp) bs lp).2 = off + clampLen off len lp ∧
      (promoEnd off (clampLen off len lp) bs lp).2 < bs := by
    rcases hspec with h | h
    · exact ⟨h.1, h.2⟩
    · exfalso
      have h2 := promoEnd_promo_val h.2.1 h.2.2.2.2
      rw [h2] at he
      simp at he
      omega
  have heq : (off / bs) * bs + (promoEnd off (clampLen off len lp) bs lp).2
      = off + clampLen off len lp := by rw [he]; exact hnp.1
  have h3 : (off / bs) * bs + off % bs = off := by omega
  refine ⟨by omega, by omega, h3, heq, ?last⟩
  unfold block_range
  rw [if_neg (by omega : ¬ clampLen off len lp = 0), if_pos he,
    if_neg (by omega : ¬ off % bs = (promoEnd off (clampLen off len lp) bs lp).2)]

theorem block_range_multi (off len bs : Nat) (lp : Option Nat)
    (hbs : 0 < bs) (hL : 0 < clampLen off len lp)
    (hne : ¬ off / bs = (promoEnd off (clampLen off len lp) bs lp).1) :
    off / bs < (promoEnd off (clampLen off len lp) bs lp).1 ∧
    (off / bs) * bs + off % bs = off ∧ off % bs < bs ∧
    block_range off len bs lp =
      (if off % bs = 0 then none else some (off / bs, off % bs, bs),
       if off % bs = 0 then
         some (off / bs, (promoEnd off (clampLen off len lp) bs lp).1)
       else if off / bs + 1 < (promoEnd off (clampLen off len lp) bs lp).1 then
         some (off / bs + 1, (promoEnd off (clampLen off len lp) bs lp).1)
       else none,
       if (promoEnd off (clampLen off len lp) bs lp).2 = 0 then none
         else some ((promoEnd off (clampLen off len lp) bs lp).1,
           (promoEnd off (clampLen off len lp) bs lp).2)) := by
  have hsb := Nat.div_add_mod off bs
  have hsp : off % bs < bs := Nat.mod_lt _ hbs
  have hcomm : bs * (off / bs) = (off / bs) * bs := Nat.mul_comm _ _
  have hge := promoEnd_fst_ge off (clampLen off len lp) bs lp
  have hdivle : off / bs ≤ (off + clampLen off len lp) / bs :=
    Nat.div_le_div_right (by omega)
  refine ⟨by omega, by omega, hsp, ?req⟩
  unfold block_range
  rw [if_neg (by omega : ¬ clampLen off len lp = 0), if_neg hne]

/-- Re-concatenating the designated slices recovers the clamped byte range,
provided the payload does not extend past `last_pos` (when given): the EOF
promotion designates the whole final block, and slicing a payload of length
`last_pos` clamps that overhang away. -/
theorem sliceOf_block_range (off len bs : Nat) (hbs : 0 < bs) (lp : Option Nat)
    (data : Bytes) (hd : ∀ l, lp = some l → data.length = l) :
    sliceOf data bs (block_range off len bs lp) =
      pySlice data off (off + clampLen off len lp) := by
  by_cases hL0 : clampLen off len lp = 0
  · rw [block_range_zero off len bs lp hL0, hL0]
    simp [sliceOf, pySlice]
  · have hL : 0 < clampLen off len lp := by omega
    by_cases he : off / bs = (promoEnd off (clampLen off len lp) bs lp).1
    · obtain ⟨h1, h2, h3, h4, hres⟩ := block_range_single off len bs lp hbs hL he
      rw [hres]
      simp only [sliceOf]
      rw [List.append_nil, List.append_nil, h3, h4]
    · obtain ⟨hlt, hoff, hsp, hres⟩ := block_range_multi off len bs lp hbs hL he
      set P := promoEnd off (clampLen off len lp) bs lp with hPdef
      rw [hres]
      have hpe := promoEnd_spec hbs off (clampLen off len lp) lp
      rw [← hPdef] at hpe
      have hoffle : off ≤ (off / bs + 1) * bs := by nlinarith
      have hmulle : (off / bs + 1) * bs ≤ P.1 * bs :=
        Nat.mul_le_mul_right bs (by omega)
      have hfirst : pySlice data off ((off / bs + 1) * bs) ++
          pySlice data ((off / bs + 1) * bs) (P.1 * bs) = pySlice data off (P.1 * bs) :=
        pySlice_append data hoffle hmulle
      by_cases hsp0 : off % bs = 0
      · have hoff0 : (off / bs) * bs = off := by omega
        by_cases hep0 : P.2 = 0
        · simp only [sliceOf, if_pos hsp0, if_pos hep0, List.nil_append, List.append_nil]
          rw [midSlices' data bs (le_of_lt hlt), hoff0]
          rcases hpe with hpe | hpe
          · have : P.1 * bs = off + clampLen off len lp := by omega
            rw [this]
          · have hlen : data.length = off + clampLen off len lp := hd _ hpe.2.1
            exact pySlice_clamp data (by omega) (by omega)
        · rcases hpe with hpe | hpe
          · simp only [sliceOf, if_pos hsp0, if_neg hep0, List.nil_append]
            rw [midSlices' data bs (le_of_lt hlt), hoff0]
            rw [pySlice_append data (by nlinarith) (by omega)]
            rw [show P.1 * bs + P.2 = off + clampLen off len lp from hpe.1]
          · exact absurd hpe.1 hep0
      · have hmid : pySlice data ((off / bs) * bs + off % bs) ((off / bs) * bs + bs) =
            pySlice data off ((off / bs + 1) * bs) := by
          rw [hoff, show (off / bs) * bs + bs = (off / bs + 1) * bs from by ring]
        by_cases hm : off / bs + 1 < P.1
        · by_cases hep0 : P.2 = 0
          · simp only [sliceOf, if_neg hsp0, if_pos hm, if_pos hep0, List.append_nil]
            rw [hmid, midSlices' data bs (le_of_lt hm), hfirst]
            rcases hpe with hpe | hpe
            · rw [show P.1 * bs = off + clampLen off len lp from by omega]
            · have hlen : data.length = off + clampLen off len lp := hd _ hpe.2.1
              exact pySlice_clamp data (by omega) (by omega)
          · rcases hpe with hpe | hpe
            · simp only [sliceOf, if_neg hsp0, if_pos hm, if_neg hep0]
              rw [hmid, midSlices' data bs (le_of_lt hm), hfirst]
              rw [pySlice_append data (by nlinarith) (by omega)]
              rw [show P.1 * bs + P.2 = off + clampLen off len lp from hpe.1]
            · exact absurd hpe.1 hep0
        · have hP1 : P.1 = off / bs + 1 := by omega
          by_cases hep0 : P.2 = 0
          · simp only [sliceOf, if_neg hsp0, if_neg hm, if_pos hep0, List.append_nil]
            rw [hmid]
            rcases hpe with hpe | hpe
            · rw [show (off / bs + 1) * bs = off + clampLen off len lp from by
                rw [← hP1]; omega]
            · have hlen : data.length = off + clampLen off len lp := hd _ hpe.2.1
              rw [hP1] at hpe
              exact pySlice_clamp data (by omega) (by omega)
          · rcases hpe with hpe | hpe
            · simp only [sliceOf, if_neg hsp0, if_neg hm, if_neg hep0, List.append_nil]
              rw [hmid, hP1]
              rw [pySlice_append data hoffle (by omega)]
              rw [show (off / bs + 1) * bs + P.2 = off + clampLen off len lp from by
                rw [← hP1]; omega]
            · exact absurd hpe.1 hep0

/-- Claim C1 (corrected), counterexample: with `offset = 0`, `length = 10`,
`block_size = 4`, `last_pos = 5` and a payload of length `length = 10`
(as the claim is stated), the EOF promotion makes `block_range` designate
whole blocks `[0, 2)`, whose slices concatenate to the first 8 bytes of the
payload — not to `data[0:10]` clamped to `last_pos = 5` (5 bytes). -/
theorem c1_counterexample :
    (0 : Nat) < 4 ∧
    List.length ([0, 1, 2, 3, 4, 5, 6, 7, 8, 9] : Bytes) = 10 ∧
    block_range 0 10 4 (some 5) = (none, some (0, 2), none) ∧
    sliceOf [0, 1, 2, 3, 4, 5, 6, 7, 8, 9] 4 (block_range 0 10 4 (some 5)) ≠
      pySlice [0, 1, 2, 3, 4, 5, 6, 7, 8, 9] 0 (min (0 + 10) 5) := by
  refine ⟨by decide, by decide, by decide, by decide⟩

/-- Claim C1 (corrected, amended): for `block_size > 0`, re-concatenating
the slices designated by `block_range(offset, length, block_size,
last_pos)` reproduces `data[offset : offset + length]` clamped to
`last_pos`, provided the payload `data` ends at `last_pos` when `last_pos`
is given (it is the end-of-file position; the equality holds for payloads
of any length when `last_pos` is omitted). -/
theorem c1_block_range_concat (off len bs : Nat) (hbs : 0 < bs) (lp : Option Nat)
    (data : Bytes) (hd : ∀ l, lp = some l → data.length = l) :
    sliceOf data bs (block_range off len bs lp) =
      pySlice data off (off + clampLen off len lp) :=
  sliceOf_block_range off len bs hbs lp data hd

/-- Witness for C1's amended theorem at `offset = 3`, `length = 10`,
`block_size = 4`, `last_pos = 13` (an input that exercises the EOF
promotion) on the 13-byte payload `[0, …, 12]`. -/
theorem c1_block_range_concat_witness :
    (0 : Nat) < 4 ∧
    sliceOf [0, 1, 2, 3, 4, 5, 6, 7, 8, 9, 10, 11, 12] 4
        (block_range 3 10 4 (some 13)) =
      pySlice [0, 1, 2, 3, 4, 5, 6, 7, 8, 9, 10, 11, 12] 3
        (3 + clampLen 3 10 (some 13)) :=
  ⟨by decide,
    c1_block_range_concat 3 10 4 (by decide) (some 13)
      [0, 1, 2, 3, 4, 5, 6, 7, 8, 9, 10, 11, 12]
      (fun l hl => by cases hl; rfl)⟩

theorem mapGet_append_unalloc (l : List Int) (k j : Nat) :
    mapGet (l ++ List.replicate k BLOCK_UNALLOCATED) j = mapGet l j := by
  unfold mapGet
  simp only [List.getD_eq_getElem?_getD]
  rcases Nat.lt_or_ge j l.length with h | h
  · rw [List.getElem?_append_left h]
  · rw [List.getElem?_append_right h, List.getElem?_replicate]
    rw [List.getElem?_eq_none (by omega)]
    split <;> rfl

theorem mapGet_set_self (l : List Int) (i : Nat) (v : Int) (h : i < l.length) :
    mapGet (l.set i v) i = v := by
  unfold mapGet
  simp only [List.getD_eq_getElem?_getD]
  rw [List.getElem?_set_self (by omega)]
  rfl

theorem mapGet_set_ne (l : List Int) (i : Nat) (v : Int) (j : Nat) (h : j ≠ i) :
    mapGet (l.set i v) j = mapGet l j := by
  unfold mapGet
  simp only [List.getD_eq_getElem?_getD]
  rw [List.getElem?_set_ne (by omega)]

theorem mapGet_take_lt (l : List Int) (n j : Nat) (h : j < n) :
    mapGet (l.take n) j = mapGet l j := by
  unfold mapGet
  simp only [List.getD_eq_getElem?_getD]
  rw [List.getElem?_take_of_lt h]

theorem mapGet_take_ge (l : List Int) (n j : Nat) (h : n ≤ j) :
    mapGet (l.take n) j = BLOCK_UNALLOCATED := by
  unfold mapGet
  simp only [List.getD_eq_getElem?_getD]
  rw [List.getElem?_eq_none]
  · rfl
  · simp
    omega

theorem mapGet_out (l : List Int) (j : Nat) (h : l.length ≤ j) :
    mapGet l j = BLOCK_UNALLOCATED := by
  unfold mapGet
  simp only [List.getD_eq_getElem?_getD]
  rw [List.getElem?_eq_none h]
  rfl

namespace BlockStorage

theorem set_cases (s : BlockStorage) (i : Nat) (data : Option Bytes) :
    (s.set i data).block_size = s.block_size ∧
    (s.set i data).block_map.length = max s.block_map.length (i + 1) ∧
    (∀ j, j ≠ i → mapGet (s.set i data).block_map j = mapGet s.block_map j) ∧
    (mapGet (s.set i data).block_map i = BLOCK_ZERO ∨
      0 ≤ mapGet (s.set i data).block_map i) := by
  have hlen1 : (s.block_map ++
      List.replicate (i + 1 - s.block_map.length) BLOCK_UNALLOCATED).length
      = max s.block_map.length (i + 1) := by
    simp [List.length_append, List.length_replicate]
    omega
  have hilt : i < max s.block_map.length (i + 1) := by omega
  simp only [set]
  by_cases hz : data = none ∨ data = some (zeroBlock s.block_size)
  · rw [if_pos hz]
    by_cases he : 0 ≤ mapGet (s.block_map ++
        List.replicate (i + 1 - s.block_map.length) BLOCK_UNALLOCATED) i
    · rw [if_pos he]
      refine ⟨rfl, ?l, ?ne, Or.inl ?self⟩
      · simp [add_free_block_idx, List.length_set, hlen1]
      · intro j hj
        rw [mapGet_set_ne _ _ _ _ hj]
        exact mapGet_append_unalloc _ _ _
      · exact mapGet_set_self _ _ _ (by simp [add_free_block_idx, hlen1, hilt])
    · rw [if_neg he]
      refine ⟨rfl, ?l2, ?ne2, Or.inl ?self2⟩
      · simp [List.length_set, hlen1]
      · intro j hj
        rw [mapGet_set_ne _ _ _ _ hj]
        exact mapGet_append_unalloc _ _ _
      · exact mapGet_set_self _ _ _ (by simp [hlen1, hilt])
  · rw [if_neg hz]
    rcases data with _ | d
    · simp at hz
    · show _ ∧ _ ∧ _ ∧ _
      by_cases he : 0 ≤ mapGet (s.block_map ++
          List.replicate (i + 1 - s.block_map.length) BLOCK_UNALLOCATED) i
      · rw [if_pos he]
        refine ⟨rfl, ?l3, ?ne3, Or.inr ?self3⟩
        · simp [List.length_set, hlen1]
        · intro j hj
          rw [mapGet_set_ne _ _ _ _ hj]
          exact mapGet_append_unalloc _ _ _
        · rw [mapGet_set_self _ _ _ (by simp [hlen1, hilt])]
          positivity
      · rw [if_neg he]
        unfold get_free_block_idx
        cases hf : s.free_map with
        | cons x xs =>
          refine ⟨rfl, ?l4, ?ne4, Or.inr ?self4⟩
          · simp [List.length_set, hlen1]
          · intro j hj
            rw [mapGet_set_ne _ _ _ _ hj]
            exact mapGet_append_unalloc _ _ _
          · rw [mapGet_set_self _ _ _ (by simp [hlen1, hilt])]
            positivity
        | nil =>
          refine ⟨rfl, ?l5, ?ne5, Or.inr ?self5⟩
          · simp [List.length_set, hlen1]
          · intro j hj
            rw [mapGet_set_ne _ _ _ _ hj]
            exact mapGet_append_unalloc _ _ _
          · rw [mapGet_set_self _ _ _ (by simp [hlen1, hilt])]
            positivity

theorem set_block_size (s : BlockStorage) (i : Nat) (data : Option Bytes) :
    (s.set i data).block_size = s.block_size := (set_cases s i data).1

theorem set_map_length (s : BlockStorage) (i : Nat) (data : Option Bytes) :
    (s.set i data).block_map.length = max s.block_map.length (i + 1) :=
  (set_cases s i data).2.1

theorem set_mapGet_ne (s : BlockStorage) (i : Nat) (data : Option Bytes)
    {j : Nat} (h : j ≠ i) :
    mapGet (s.set i data).block_map j = mapGet s.block_map j :=
  (set_cases s i data).2.2.1 j h

theorem set_present_self (s : BlockStorage) (i : Nat) (data : Option Bytes) :
    Present (s.set i data) i := by
  rcases (set_cases s i data).2.2.2 with h | h <;>
    simp [Present, h, BLOCK_ZERO, BLOCK_UNALLOCATED] <;> omega

theorem set_present_mono (s : BlockStorage) (i : Nat) (data : Option Bytes)
    {j : Nat} (h : Present s j) : Present (s.set i data) j := by
  by_cases hj : j = i
  · subst hj
    exact set_present_self s j data
  · unfold Present at *
    rw [set_mapGet_ne s i data hj]
    exact h

theorem heappushMin_mem (l : List Nat) (y x : Nat) :
    x ∈ heappushMin l y ↔ x ∈ l ∨ x = y := by
  induction l with
  | nil => simp [heappushMin]
  | cons a as ih =>
    unfold heappushMin
    by_cases h : y ≤ a
    · rw [if_pos h]
      simp
      tauto
    · rw [if_neg h]
      simp [ih]
      tauto

theorem heappushMin_nodup (l : List Nat) (y : Nat) (hn : l.Nodup) (hy : y ∉ l) :
    (heappushMin l y).Nodup := by
  induction l with
  | nil => simp [heappushMin]
  | cons a as ih =>
    unfold heappushMin
    simp at hn hy
    by_cases h : y ≤ a
    · rw [if_pos h]
      simp
      refine ⟨⟨by omega, hy.2⟩, hn⟩
    · rw [if_neg h]
      simp [heappushMin_mem]
      refine ⟨⟨fun hc => hn.1 hc, by omega⟩, ih hn.2 hy.2⟩

theorem foldl_max_le (xs : List Int) (a : Int) :
    a ≤ xs.foldl max a ∧ ∀ x ∈ xs, x ≤ xs.foldl max a := by
  induction xs generalizing a with
  | nil => simp
  | cons b bs ih =>
    simp only [List.foldl_cons]
    obtain ⟨h1, h2⟩ := ih (max a b)
    refine ⟨le_trans (le_max_left a b) h1, ?h⟩
    intro x hx
    rcases List.mem_cons.mp hx with rfl | hx
    · exact le_trans (le_max_right a x) h1
    · exact h2 x hx

theorem Inv_init (file : Bytes) (bs : Nat) : Inv (init file bs) := by
  refine ⟨?a, ?b, ?c, ?d⟩ <;> simp [init, reconstruct_free_map, mapGet, BLOCK_UNALLOCATED]

theorem Inv_update (s : BlockStorage) (i : Nat) (v : Int) (F : List Nat) (n : Nat)
    (f' : Bytes) (bs' : Nat) (hInv : Inv s)
    (hv : v = BLOCK_ZERO ∨ (0 ≤ v ∧ v.toNat ∉ F ∧ v.toNat < n ∧
      ∀ j, 0 ≤ mapGet s.block_map j → mapGet s.block_map j = v → j = i))
    (hrefF : ∀ j, j ≠ i → 0 ≤ mapGet s.block_map j →
      (mapGet s.block_map j).toNat ∉ F ∧ (mapGet s.block_map j).toNat < n)
    (hF : ∀ p ∈ F, p < n) (hnodup : F.Nodup) :
    Inv ⟨f', bs',
      (s.block_map ++ List.replicate (i + 1 - s.block_map.length) BLOCK_UNALLOCATED).set i v,
      F, n⟩ := by
  obtain ⟨hone, href, hfree, hnd⟩ := hInv
  have hmap1 : ∀ j, mapGet (s.block_map ++
      List.replicate (i + 1 - s.block_map.length) BLOCK_UNALLOCATED) j
      = mapGet s.block_map j := fun j => mapGet_append_unalloc _ _ j
  have hlen1 : (s.block_map ++
      List.replicate (i + 1 - s.block_map.length) BLOCK_UNALLOCATED).length
      = max s.block_map.length (i + 1) := by
    simp [List.length_append, List.length_replicate]
    omega
  have hilt : i < (s.block_map ++
      List.replicate (i + 1 - s.block_map.length) BLOCK_UNALLOCATED).length := by
    rw [hlen1]; omega
  have hgi : ∀ j, mapGet ((s.block_map ++
        List.replicate (i + 1 - s.block_map.length) BLOCK_UNALLOCATED).set i v) j
      = if j = i then v else mapGet s.block_map j := by
    intro j
    by_cases hj : j = i
    · subst hj
      rw [if_pos rfl]
      exact mapGet_set_self _ _ _ hilt
    · rw [if_neg hj, mapGet_set_ne _ _ _ _ hj]
      exact hmap1 j
  refine ⟨?one, ?ref, hF, hnodup⟩
  · intro a b ha hab
    rw [hgi a] at ha hab
    rw [hgi b] at hab
    by_cases hai : a = i
    · subst hai
      rw [if_pos rfl] at ha hab
      by_cases hbi : b = a
      · omega
      · rw [if_neg hbi] at hab
        rcases hv with rfl | ⟨hv0, _, _, huniq⟩
        · simp [BLOCK_ZERO] at ha
        · exact absurd (huniq b (by omega) hab.symm) hbi
    · rw [if_neg hai] at ha hab
      by_cases hbi : b = i
      · subst hbi
        rw [if_pos rfl] at hab
        rcases hv with rfl | ⟨hv0, _, _, huniq⟩
        · rw [hab] at ha
          simp [BLOCK_ZERO] at ha
        · exact absurd (huniq a ha hab) hai
      · rw [if_neg hbi] at hab
        exact hone a b ha hab
  · intro a ha
    rw [hgi a] at ha ⊢
    by_cases hai : a = i
    · rw [if_pos hai] at ha ⊢
      rcases hv with rfl | ⟨hv0, hnf, hlt, _⟩
      · simp [BLOCK_ZERO] at ha
      · exact ⟨hnf, hlt⟩
    · rw [if_neg hai] at ha ⊢
      exact hrefF a hai ha

theorem Inv_set (s : BlockStorage) (i : Nat) (data : Option Bytes) (h : Inv s) :
    Inv (s.set i data) := by
  have hInv := h
  obtain ⟨hone, href, hfree, hnd⟩ := h
  have hmap1 : ∀ j, mapGet (s.block_map ++
      List.replicate (i + 1 - s.block_map.length) BLOCK_UNALLOCATED) j
      = mapGet s.block_map j := fun j => mapGet_append_unalloc _ _ j
  simp only [set, add_free_block_idx]
  by_cases hz : data = none ∨ data = some (zeroBlock s.block_size)
  · rw [if_pos hz]
    by_cases he : 0 ≤ mapGet (s.block_map ++
        List.replicate (i + 1 - s.block_map.length) BLOCK_UNALLOCATED) i
    · rw [if_pos he, hmap1 i]
      dsimp only
      rw [hmap1 i] at he
      refine Inv_update s i BLOCK_ZERO _ _ _ _ hInv (Or.inl rfl) ?hrefF ?hF ?hnodup
      · intro j hj hj0
        obtain ⟨hnf, hlt⟩ := href j hj0
        constructor
        · rw [heappushMin_mem]
          push_neg
          refine ⟨hnf, fun hc => hj (hone j i hj0 (by omega))⟩
        · exact hlt
      · intro p hp
        rw [heappushMin_mem] at hp
        rcases hp with hp | hp
        · exact hfree p hp
        · subst hp
          exact (href i he).2
      · exact heappushMin_nodup _ _ hnd (href i he).1
    · rw [if_neg he]
      dsimp only
      rw [hmap1 i] at he
      exact Inv_update s i BLOCK_ZERO _ _ _ _ hInv (Or.inl rfl)
        (fun j hj hj0 => href j hj0) hfree hnd
  · rw [if_neg hz]
    rcases data with _ | d
    · simp at hz
    · show Inv _
      by_cases he : 0 ≤ mapGet (s.block_map ++
          List.replicate (i + 1 - s.block_map.length) BLOCK_UNALLOCATED) i
      · rw [if_pos he]
        dsimp only
        rw [hmap1 i] at he
        rw [hmap1 i]
        have hval : ((mapGet s.block_map i).toNat : Int) = mapGet s.block_map i := by
          omega
        refine Inv_update s i _ _ _ _ _ hInv
          (Or.inr ⟨by omega, ?hnf, ?hlt, ?huniq⟩)
          (fun j hj hj0 => href j hj0) hfree hnd
        · rw [Int.toNat_natCast]
          exact (href i he).1
        · rw [Int.toNat_natCast]
          exact (href i he).2
        · intro j hj0 hjv
          rw [hval] at hjv
          exact hone j i hj0 hjv
      · rw [if_neg he]
        dsimp only
        rw [hmap1 i] at he
        simp only [get_free_block_idx]
        cases hf : s.free_map with
        | cons x xs =>
          dsimp only
          have hxfree : x ∈ s.free_map := by rw [hf]; exact List.mem_cons_self x xs
          have hnd' : x ∉ xs ∧ xs.Nodup := by
            rw [hf] at hnd
            exact List.nodup_cons.mp hnd
          refine Inv_update s i _ _ _ _ _ hInv
            (Or.inr ⟨by positivity, ?hnf2, ?hlt2, ?huniq2⟩)
            ?hrefF2 ?hF2 hnd'.2
          · rw [Int.toNat_natCast]
            exact hnd'.1
          · rw [Int.toNat_natCast]
            exact hfree x hxfree
          · intro j hj0 hjv
            exfalso
            have := (href j hj0).1
            rw [hjv] at this
            rw [Int.toNat_natCast] at this
            exact this hxfree
          · intro j hj hj0
            obtain ⟨hnf, hlt⟩ := href j hj0
            refine ⟨fun hc => hnf ?hm, hlt⟩
            rw [hf]
            exact List.mem_cons_of_mem x hc
          · intro p hp
            exact hfree p (by rw [hf]; exact List.mem_cons_of_mem x hp)
        | nil =>
          dsimp only
          refine Inv_update s i _ _ _ _ _ hInv
            (Or.inr ⟨by positivity, by simp, by simp, ?huniq3⟩)
            ?hrefF3 (by simp) (by simp)
          · intro j hj0 hjv
            exfalso
            have := (href j hj0).2
            rw [hjv] at this
            rw [Int.toNat_natCast] at this
            omega
          · intro j hj hj0
            obtain ⟨hnf, hlt⟩ := href j hj0
            exact ⟨by simp, by omega⟩

theorem mapGet_mem (m : List Int) (j : Nat) (h : j < m.length) : mapGet m j ∈ m := by
  unfold mapGet
  simp only [List.getD_eq_getElem?_getD]
  rw [List.getElem?_eq_getElem h]
  exact List.getElem_mem h

theorem Inv_truncate (s : BlockStorage) (n : Nat) (h : Inv s) : Inv (s.truncate n) := by
  obtain ⟨hone, href, hfree, hnd⟩ := h
  simp only [truncate, truncate_free_map]
  have hget : ∀ j, mapGet (s.block_map.take n) j
      = if j < n then mapGet s.block_map j else BLOCK_UNALLOCATED := by
    intro j
    by_cases hj : j < n
    · rw [if_pos hj, mapGet_take_lt _ _ _ hj]
    · rw [if_neg hj, mapGet_take_ge _ _ _ (by omega)]
  have hbound : ∀ j, 0 ≤ mapGet (s.block_map.take n) j →
      (mapGet (s.block_map.take n) j).toNat <
        (match s.block_map.take n with
          | [] => 0
          | x :: xs => (max 0 (xs.foldl max x + 1)).toNat) := by
    intro j hj
    have hjlen : j < (s.block_map.take n).length := by
      by_contra hc
      rw [mapGet_out _ _ (by omega)] at hj
      simp [BLOCK_UNALLOCATED] at hj
    have hmem := mapGet_mem (s.block_map.take n) j hjlen
    cases hbm : s.block_map.take n with
    | nil => rw [hbm] at hjlen; simp at hjlen
    | cons x xs =>
      rw [hbm] at hmem hj
      have hmax := foldl_max_le xs x
      have hle : mapGet (x :: xs) j ≤ xs.foldl max x := by
        rcases List.mem_cons.mp hmem with hx | hx
        · rw [hx]; exact hmax.1
        · exact hmax.2 _ hx
      show (mapGet (x :: xs) j).toNat < (max 0 (xs.foldl max x + 1)).toNat
      omega
  refine ⟨?one, ?ref, ?fr, List.Nodup.filter _ hnd⟩
  · intro a b ha hab
    rw [hget a] at ha hab
    rw [hget b] at hab
    by_cases han : a < n
    · rw [if_pos han] at ha hab
      by_cases hbn : b < n
      · rw [if_pos hbn] at hab
        exact hone a b ha hab
      · rw [if_neg hbn] at hab
        rw [hab] at ha
        simp [BLOCK_UNALLOCATED] at ha
    · rw [if_neg han] at ha
      simp [BLOCK_UNALLOCATED] at ha
  · intro a ha
    constructor
    · intro hc
      have hsub : (mapGet ((⟨s.file, s.block_size, s.block_map.take n, s.free_map,
          s.free_block_idx⟩ : BlockStorage).block_map) a).toNat ∈ s.free_map :=
        List.mem_of_mem_filter hc
      have ha' := ha
      rw [hget a] at ha' hsub
      by_cases han : a < n
      · rw [if_pos han] at ha' hsub
        exact (href a ha').1 hsub
      · rw [if_neg han] at ha'
        simp [BLOCK_UNALLOCATED] at ha'
    · exact hbound a ha
  · intro p hp
    have := List.of_mem_filter hp
    simpa using this

theorem Inv_reach {s : BlockStorage} (h : Reach s) : Inv s := by
  induction h with
  | init file bs => exact Inv_init file bs
  | set i data _ _ ih => exact Inv_set _ i data ih
  | trunc n _ ih => exact Inv_truncate _ n ih

end BlockStorage

theorem c2_counterexample_check :
    ((((BlockStorage.init [] 4).set 0 none).set 1 (some [97, 98])).set 0
        (some [99, 100])).truncate 1
    = ⟨[97, 98, 0, 0, 99, 100, 0, 0], 4, [1], [], 2⟩ := by rfl

/-- Claim C2 (corrected), counterexample: from a fresh `BlockStorage` with
`block_size = 4`, the call sequence `set 0 None; set 1 b"ab"; set 0 b"cd";
truncate 1` reaches the state `⟨…, block_map = [1], free_map = [],
free_block_idx = 2⟩`, in which physical slot 0 (referenced only by the
discarded logical index 1) is neither referenced, nor free, nor ≥
`free_block_idx`: the claimed partition of the slot space fails. -/
theorem c2_counterexample :
    BlockStorage.Reach (((((BlockStorage.init [] 4).set 0 none).set 1
        (some [97, 98])).set 0 (some [99, 100])).truncate 1) ∧
    ¬ BlockStorage.ClaimedPartition (((((BlockStorage.init [] 4).set 0 none).set 1
        (some [97, 98])).set 0 (some [99, 100])).truncate 1) := by
  constructor
  · refine BlockStorage.Reach.trunc 1 ?s3
    refine BlockStorage.Reach.set 0 (some [99, 100]) ?s2 (by intro d hd; cases hd; decide)
    refine BlockStorage.Reach.set 1 (some [97, 98]) ?s1 (by intro d hd; cases hd; decide)
    exact BlockStorage.Reach.set 0 none (BlockStorage.Reach.init [] 4)
      (by intro d hd; cases hd)
  · intro h
    rw [c2_counterexample_check] at h
    rcases h.2.2.2 0 with ⟨i, hi, he⟩ | hf | hb
    · simp at hi
      subst hi
      exact absurd he (by decide)
    · simp at hf
    · exact absurd hb (by decide)

theorem except_bind_ok {e : Type} {a b : Type} (x : a) (f : a → Except e b) :
    (Except.ok x >>= f) = f x := rfl

/-- Claim C9 (confirmed): `__contains__`, `__getitem__` and `__setitem__`
raise `ValueError` for every negative index; `__setitem__` raises
`ValueError` for data longer than `block_size`; `__getitem__` raises
`IOError(EIO)` when the map entry of an allocated index is a negative
value other than the `UNALLOCATED` and `ZERO` sentinels. -/
theorem c9_error_classification :
    (∀ (s : BlockStorage) (idx : Int), idx < 0 →
      s.containsE idx = .error .valueError ∧
      s.getitemE idx = .error .valueError ∧
      ∀ data, s.setitemE idx data = .error .valueError) ∧
    (∀ (s : BlockStorage) (idx : Int) (d : Bytes), 0 ≤ idx →
      s.block_size < d.length → s.setitemE idx (some d) = .error .valueError) ∧
    (∀ (s : BlockStorage) (idx : Int), 0 ≤ idx → idx < (s.block_map.length : Int) →
      mapGet s.block_map idx.toNat ≠ BLOCK_UNALLOCATED →
      mapGet s.block_map idx.toNat ≠ BLOCK_ZERO →
      mapGet s.block_map idx.toNat < 0 →
      s.getitemE idx = .error (.ioError errnoEIO)) := by
  refine ⟨?neg, ?oversize, ?eio⟩
  · intro s idx hidx
    have hc : s.containsE idx = .error .valueError := by
      unfold BlockStorage.containsE
      rw [if_pos (by omega : ¬ 0 ≤ idx)]
    refine ⟨hc, ?g, ?st⟩
    · unfold BlockStorage.getitemE
      rw [hc]
      rfl
    · intro data
      unfold BlockStorage.setitemE
      rw [if_pos (by omega : ¬ 0 ≤ idx)]
  · intro s idx d hidx hlen
    have hdz : ¬ (some d = none ∨ some d = some (zeroBlock s.block_size)) := by
      push_neg
      refine ⟨by simp, ?z⟩
      intro hc
      have := congrArg List.length (Option.some.inj hc)
      simp [zeroBlock] at this
      omega
    unfold BlockStorage.setitemE
    rw [if_neg (by omega : ¬ ¬ 0 ≤ idx), if_neg hdz]
    show (if s.block_size < d.length then _ else _) = _
    rw [if_pos hlen]
  · intro s idx h0 hlen h1 h2 hneg
    have hcont : s.containsE idx = .ok true := by
      unfold BlockStorage.containsE
      rw [if_neg (by omega : ¬ ¬ 0 ≤ idx), if_neg (by omega : ¬ (s.block_map.length : Int) ≤ idx)]
      rw [decide_eq_true h1]
    unfold BlockStorage.getitemE
    rw [hcont, except_bind_ok]
    simp only []
    rw [if_neg (show ¬ ¬ True by simp)]
    rw [if_neg (by omega : ¬ 0 ≤ mapGet s.block_map idx.toNat), if_neg h2]

/-- Claim C2 (corrected, amended): in every reachable `BlockStorage`, no
physical slot is referenced by two distinct logical indices, and the
referenced slots, the free map and `[free_block_idx, ∞)` are pairwise
disjoint (with the free map duplicate-free); they need not cover the slot
space, because `truncate` orphans the slots of discarded entries until
`_reconstruct_free_map` runs again. -/
theorem c2_slot_invariant (s : BlockStorage) (h : BlockStorage.Reach s) :
    BlockStorage.Inv s :=
  BlockStorage.Inv_reach h

/-- Witness for C2's amended theorem at a concrete reachable state. -/
theorem c2_slot_invariant_witness : BlockStorage.Inv (BlockStorage.init [] 4) :=
  c2_slot_invariant (BlockStorage.init [] 4) (BlockStorage.Reach.init [] 4)

/-- Witness for C9 at concrete inputs: a negative index, an oversized
write, and a corrupted map entry `-3`. -/
theorem c9_error_classification_witness :
    (BlockStorage.init [] 4).containsE (-1) = .error .valueError ∧
    (BlockStorage.init [] 4).setitemE 0 (some [1, 2, 3, 4, 5]) = .error .valueError ∧
    BlockStorage.getitemE ⟨[], 4, [-3], [], 0⟩ 0 = .error (.ioError errnoEIO) :=
  ⟨(c9_error_classification.1 (BlockStorage.init [] 4) (-1) (by decide)).1,
   c9_error_classification.2.1 (BlockStorage.init [] 4) 0 [1, 2, 3, 4, 5]
     (by decide) (by decide),
   c9_error_classification.2.2 ⟨[], 4, [-3], [], 0⟩ 0 (by decide) (by decide)
     (by decide) (by decide) (by decide)⟩

theorem natToLE_length (k n : Nat) : (natToLE k n).length = k := by
  induction k generalizing n with
  | zero => rfl
  | succ m ih => simp [natToLE, ih]

theorem leToNat_natToLE (k n : Nat) (h : n < 256 ^ k) : leToNat (natToLE k n) = n := by
  induction k generalizing n with
  | zero =>
    simp at h
    simp [natToLE, leToNat, h]
  | succ m ih =>
    have hlt : n / 256 < 256 ^ m := by
      rw [Nat.div_lt_iff_lt_mul (by norm_num)]
      calc n < 256 ^ (m + 1) := h
      _ = 256 ^ m * 256 := by ring
    simp only [natToLE, leToNat, ih (n / 256) hlt]
    omega

theorem tobytesI64_length (l : List Int) : (tobytesI64 l).length = 8 * l.length := by
  induction l with
  | nil => rfl
  | cons z zs ih =>
    simp only [tobytesI64, List.map_cons, List.flatten_cons, List.length_append,
      List.length_cons]
    rw [show ((zs.map encodeI64).flatten = tobytesI64 zs) from rfl] at *
    rw [ih]
    have : (encodeI64 z).length = 8 := natToLE_length 8 _
    omega

theorem decodeI64_encodeI64 (z : Int) (h1 : -(2 ^ 63) ≤ z) (h2 : z < 2 ^ 63) :
    decodeI64 (encodeI64 z) = z := by
  unfold decodeI64 encodeI64
  rcases le_or_lt 0 z with hz | hz
  · have hmod : z % (2 ^ 64 : Int) = z := Int.emod_eq_of_lt hz (by omega)
    rw [hmod, leToNat_natToLE 8 z.toNat (by norm_num; omega)]
    rw [if_neg (by omega)]
    omega
  · have hmod : z % (2 ^ 64 : Int) = z + 2 ^ 64 := by
      have h3 : (z + 2 ^ 64 * 1) % (2 ^ 64 : Int) = z % 2 ^ 64 :=
        Int.add_mul_emod_self_left z (2 ^ 64) 1
      have h4 : (z + 2 ^ 64 * 1) % (2 ^ 64 : Int) = z + 2 ^ 64 :=
        Int.emod_eq_of_lt (by omega) (by omega)
      omega
    rw [hmod, leToNat_natToLE 8 _ (by norm_num; omega)]
    rw [if_pos (by omega)]
    omega

theorem take_app_len {α : Type} (l1 l2 : List α) (n : Nat) (h : n = l1.length) :
    (l1 ++ l2).take n = l1 := by
  subst h
  exact List.take_left l1 l2

theorem drop_app_len {α : Type} (l1 l2 : List α) (n : Nat) (h : n = l1.length) :
    (l1 ++ l2).drop n = l2 := by
  subst h
  exact List.drop_left l1 l2

theorem encodeI64_length (z : Int) : (encodeI64 z).length = 8 :=
  natToLE_length 8 _

theorem frombytesI64_chunk (e rest : Bytes) (he : e.length = 8) :
    frombytesI64 (e ++ rest) = decodeI64 e :: frombytesI64 rest := by
  cases e with
  | nil => simp at he
  | cons x xs =>
    rw [List.cons_append, frombytesI64]
    rw [← List.cons_append]
    rw [take_app_len _ _ 8 (by omega), drop_app_len _ _ 8 (by omega)]

theorem frombytesI64_tobytesI64 (l : List Int)
    (h : ∀ z ∈ l, -(2 ^ 63) ≤ z ∧ z < 2 ^ 63) :
    frombytesI64 (tobytesI64 l) = l := by
  induction l with
  | nil => simp [tobytesI64, frombytesI64]
  | cons z zs ih =>
    have ht : tobytesI64 (z :: zs) = encodeI64 z ++ tobytesI64 zs := by
      simp [tobytesI64]
    rw [ht, frombytesI64_chunk (encodeI64 z) (tobytesI64 zs) (encodeI64_length z)]
    obtain ⟨h1, h2⟩ := h z (List.mem_cons_self z zs)
    rw [decodeI64_encodeI64 z h1 h2, ih (fun w hw => h w (List.mem_cons_of_mem z hw))]

theorem restore_save (s : BlockStorage)
    (hmap : ∀ z ∈ s.block_map, -(2 ^ 63) ≤ z ∧ z < 2 ^ 63)
    (hbs : s.block_size < 2 ^ 64)
    (hlen : s.block_map.length * 8 < 2 ^ 64) :
    BlockStorage.restore_state s.file (BlockStorage.save_state s) = .ok
      { file := s.file, block_size := s.block_size, block_map := s.block_map,
        free_map := (BlockStorage.reconstruct_free_map s.block_map).1,
        free_block_idx := (BlockStorage.reconstruct_free_map s.block_map).2 } := by
  have hdl : (tobytesI64 s.block_map).length = 8 * s.block_map.length :=
    tobytesI64_length s.block_map
  have hsave : BlockStorage.save_state s = [66, 76, 75, 50] ++
      (natToLE 8 s.block_size ++
        (natToLE 8 (tobytesI64 s.block_map).length ++ tobytesI64 s.block_map)) := by
    unfold BlockStorage.save_state zlibCompress
    simp only [List.append_assoc]
  have htake4 : (BlockStorage.save_state s).take 4 = [66, 76, 75, 50] := by
    rw [hsave, take_app_len _ _ 4 (by simp)]
  have hdrop4 : (BlockStorage.save_state s).drop 4 =
      natToLE 8 s.block_size ++
        (natToLE 8 (tobytesI64 s.block_map).length ++ tobytesI64 s.block_map) := by
    rw [hsave, drop_app_len _ _ 4 (by simp)]
  have hbsfield : (((BlockStorage.save_state s).drop 4).take 16).take 8
      = natToLE 8 s.block_size := by
    rw [hdrop4, List.take_take]
    rw [show min 8 16 = 8 from rfl, take_app_len _ _ 8 (natToLE_length 8 _).symm]
  have hszfield : (((BlockStorage.save_state s).drop 4).take 16).drop 8
      = natToLE 8 (tobytesI64 s.block_map).length := by
    rw [hdrop4, List.drop_take, drop_app_len _ _ 8 (natToLE_length 8 _).symm]
    rw [show (16 : Nat) - 8 = 8 from rfl,
      take_app_len _ _ 8 (natToLE_length 8 _).symm]
  have hdrop20 : (BlockStorage.save_state s).drop 20 = tobytesI64 s.block_map := by
    have h1 : (BlockStorage.save_state s).drop 20
        = (((BlockStorage.save_state s).drop 4).drop 8).drop 8 := by
      rw [List.drop_drop, List.drop_drop]
    rw [h1, hdrop4, drop_app_len _ _ 8 (natToLE_length 8 _).symm,
      drop_app_len _ _ 8 (natToLE_length 8 _).symm]
  unfold BlockStorage.restore_state
  rw [if_neg (by rw [htake4]; simp)]
  rw [hszfield, leToNat_natToLE 8 _ (by norm_num; omega), hdrop20, List.take_length]
  show Except.ok _ = Except.ok _
  rw [hbsfield, leToNat_natToLE 8 _ (by norm_num; omega)]
  rw [frombytesI64_tobytesI64 s.block_map hmap]

/-- Claim C6 (confirmed): `restore_state` applied to the data file and the
blob written by `save_state` reproduces the original `block_map` and
`block_size`, and leaves the physical data file untouched (so the contents
at every referenced slot agree); premises bound the entries and sizes to
the 64-bit fields of the format. -/
theorem c6_save_restore_identity (s : BlockStorage)
    (hmap : ∀ z ∈ s.block_map, -(2 ^ 63) ≤ z ∧ z < 2 ^ 63)
    (hbs : s.block_size < 2 ^ 64)
    (hlen : s.block_map.length * 8 < 2 ^ 64) :
    ∃ t, BlockStorage.restore_state s.file (BlockStorage.save_state s) = .ok t ∧
      t.block_map = s.block_map ∧ t.block_size = s.block_size ∧ t.file = s.file :=
  ⟨_, restore_save s hmap hbs hlen, rfl, rfl, rfl⟩

/-- Witness for C6 at a storage with a `ZERO` sentinel, two slots in use
and eight bytes of file data. -/
theorem c6_save_restore_identity_witness :
    ∃ t, BlockStorage.restore_state [1, 2, 3, 4, 5, 6, 7, 8]
        (BlockStorage.save_state ⟨[1, 2, 3, 4, 5, 6, 7, 8], 4, [-2, 1, 0], [], 2⟩)
      = .ok t ∧
      t.block_map = [-2, 1, 0] ∧ t.block_size = 4 ∧ t.file = [1, 2, 3, 4, 5, 6, 7, 8] :=
  c6_save_restore_identity ⟨[1, 2, 3, 4, 5, 6, 7, 8], 4, [-2, 1, 0], [], 2⟩
    (by decide) (by decide) (by decide)

/-- C7: `SetRedisInodeValue` is claimed to return true exactly when the
compare-and-set succeeded and a subsequent read observes the new value.
In fact it returns false on every input — even when the stored value
equals the expected value, so the CAS succeeds and the store afterwards
holds the new value — because `GetRedisInodeValue` always returns `None`
and the confirmation `GetRedisInodeValue(...) == value` can never hold. -/
theorem c7_set_state_never_true (store : RedisStore) (inode key value : String)
    (expected : Option String) :
    (SetRedisInodeValue store inode key value expected).2 = false ∧
    (∀ e, expected = some e → store (redisKey inode key) = some e →
      (SetRedisInodeValue store inode key value expected).1 (redisKey inode key)
        = some value) := by
  constructor
  · rcases expected with _ | e
    · simp [SetRedisInodeValue, GetRedisInodeValue]
    · by_cases h : store (redisKey inode key) = some e
      · simp [SetRedisInodeValue, h, GetRedisInodeValue]
      · simp [SetRedisInodeValue, h]
  · rintro e rfl hst
    simp [SetRedisInodeValue, hst]

theorem c7_set_state_never_true_witness :
    (SetRedisInodeValue (fun k => if k = "9:acquire" then some "1" else none)
      "9" "acquire" "2" (some "1")).2 = false ∧
    (SetRedisInodeValue (fun k => if k = "9:acquire" then some "1" else none)
      "9" "acquire" "2" (some "1")).1 (redisKey "9" "acquire") = some "2" := by
  have h := c7_set_state_never_true
    (fun k => if k = "9:acquire" then some "1" else none) "9" "acquire" "2" (some "1")
  exact ⟨h.1, h.2 "1" rfl (by decide)⟩

theorem restrict_size_keep_le (cache_size : Nat) (l : List Nat) :
    ∀ tot, tot ≤ cache_size →
      tot + (restrict_size_keep cache_size l tot).sum ≤ cache_size := by
  induction l with
  | nil => intro tot h; simpa [restrict_size_keep]
  | cons sz rest ih =>
    intro tot h
    unfold restrict_size_keep
    by_cases hc : cache_size < tot + sz
    · rw [if_pos hc]
      exact ih tot h
    · rw [if_neg hc]
      have := ih (tot + sz) (by omega)
      simp only [List.sum_cons]
      omega

/-- C8 counterexample: with `cache_size = 10` and post-sort sizes
`[6, 7, 3]`, the loop unlinks the 7-byte file (6 + 7 > 10) but then keeps
the 3-byte file (6 + 3 ≤ 10), so the kept files are not an order-prefix of
the sorted list: the claim's "unlinking every remaining file after that
point" fails. -/
theorem c8_counterexample :
    restrict_size_keep 10 [6, 7, 3] 0 = [6, 3] ∧
    ¬ ∃ k, restrict_size_keep 10 [6, 7, 3] 0 = List.take k [6, 7, 3] := by
  refine ⟨by decide, ?noPrefix⟩
  rintro ⟨k, hk⟩
  match k, hk with
  | 0, hk => exact absurd hk (by decide)
  | 1, hk => exact absurd hk (by decide)
  | 2, hk => exact absurd hk (by decide)
  | n + 3, hk =>
    rw [List.take_of_length_le (by simp)] at hk
    exact absurd hk (by decide)

/-- C8 (amended): the loop keeps a file exactly when its size still fits
under the limit given the sizes already kept — skipped files are unlinked
but the scan continues, so the kept files need not be a prefix of the
score order.  The retained-size bound does hold: the total size of kept
files never exceeds `cache_size`. -/
theorem c8_eviction_bound (cache_size : Nat) (l : List Nat) :
    (restrict_size_keep cache_size l 0).sum ≤ cache_size := by
  have h := restrict_size_keep_le cache_size l 0 (Nat.zero_le _)
  omega

theorem clampLen_none (off len : Nat) : clampLen off len none = len := rfl

theorem promoEnd_none (off L bs : Nat) :
    promoEnd off L bs none = ((off + L) / bs, (off + L) % bs) := by
  simp [promoEnd]

theorem except_bind_err {e : Type} {a b : Type} (x : e) (f : a → Except e b) :
    (Except.error x >>= f : Except e b) = .error x := rfl

theorem takeWhile_all {α : Type} (p : α → Bool) (l : List α) (h : ∀ x ∈ l, p x) :
    l.takeWhile p = l := by
  induction l with
  | nil => rfl
  | cons x xs ih =>
    rw [List.takeWhile_cons, if_pos (h x (by simp))]
    rw [ih (fun y hy => h y (by simp [hy]))]

theorem takeWhile_le_len {α : Type} (p : α → Bool) (l : List α) :
    (l.takeWhile p).length ≤ l.length := by
  induction l with
  | nil => simp
  | cons x xs ih =>
    rw [List.takeWhile_cons]
    by_cases h : p x
    · rw [if_pos h]; simpa using ih
    · rw [if_neg h]; simp

theorem range'_takeWhile_pred (p : Nat → Bool) (n : Nat) :
    ∀ a i, a ≤ i → i < a + ((List.range' a n).takeWhile p).length → p i := by
  induction n with
  | zero => intro a i h1 h2; simp at h2; omega
  | succ n ih =>
    intro a i h1 h2
    rw [List.range'_succ, List.takeWhile_cons] at h2
    by_cases hp : p a
    · rw [if_pos hp] at h2
      simp only [List.length_cons] at h2
      by_cases hi : i = a
      · exact hi ▸ hp
      · exact ih (a + 1) i (by omega) (by omega)
    · rw [if_neg hp] at h2
      simp at h2
      omega

namespace BlockStorage

theorem MapOK_init (f : Bytes) (bs : Nat) : MapOK (init f bs) := by
  intro i
  simp [init, mapGet, BLOCK_ZERO, BLOCK_UNALLOCATED]

theorem MapOK_set (s : BlockStorage) (i : Nat) (d : Option Bytes) (h : MapOK s) :
    MapOK (s.set i d) := by
  intro j
  by_cases hj : j = i
  · subst hj
    rcases (set_cases s j d).2.2.2 with h2 | h2
    · rw [h2]
    · rw [BLOCK_ZERO]; omega
  · rw [set_mapGet_ne s i d hj]
    exact h j

theorem truncate_block_map (s : BlockStorage) (n : Nat) :
    (s.truncate n).block_map = s.block_map.take n := rfl

theorem truncate_block_size (s : BlockStorage) (n : Nat) :
    (s.truncate n).block_size = s.block_size := rfl

theorem MapOK_truncate (s : BlockStorage) (n : Nat) (h : MapOK s) :
    MapOK (s.truncate n) := by
  intro j
  rw [truncate_block_map]
  by_cases hj : j < n
  · rw [mapGet_take_lt _ _ _ hj]
    exact h j
  · rw [mapGet_take_ge _ _ _ (by omega)]
    simp [BLOCK_ZERO, BLOCK_UNALLOCATED]

theorem set_zero_mapGet_self (s : BlockStorage) (i : Nat) (d : Option Bytes)
    (hz : d = none ∨ d = some (zeroBlock s.block_size)) :
    mapGet (s.set i d).block_map i = BLOCK_ZERO := by
  simp only [set]
  rw [if_pos hz]
  by_cases he : 0 ≤ mapGet (s.block_map ++
      List.replicate (i + 1 - s.block_map.length) BLOCK_UNALLOCATED) i
  · rw [if_pos he]
    exact mapGet_set_self _ _ _ (by simp [add_free_block_idx]; omega)
  · rw [if_neg he]
    exact mapGet_set_self _ _ _ (by simp; omega)

theorem get_ok (s : BlockStorage) (i : Nat) (hm : MapOK s) (hp : Present s i) :
    ∃ b, s.get i = .ok b ∧ b.length = s.block_size := by
  unfold get
  rw [if_neg (not_not_intro hp)]
  by_cases h0 : 0 ≤ mapGet s.block_map i
  · rw [if_pos h0]
    refine ⟨_, rfl, ?len⟩
    have hle : (fileRead s.file (s.block_size * (mapGet s.block_map i).toNat)
        s.block_size).length ≤ s.block_size := by
      unfold fileRead
      simp [List.length_take]
    simp only [List.length_append, List.length_replicate]
    omega
  · rw [if_neg h0]
    have h2 : mapGet s.block_map i = BLOCK_ZERO := by
      have h3 := hm i
      unfold Present at hp
      rw [BLOCK_ZERO] at *
      rw [BLOCK_UNALLOCATED] at hp
      omega
    rw [if_pos h2]
    exact ⟨_, rfl, by simp [zeroBlock]⟩

theorem setitemE_ok {s : BlockStorage} {idx : Int} {d : Option Bytes}
    {s' : BlockStorage} (h : s.setitemE idx d = .ok s') : s' = s.set idx.toNat d := by
  unfold setitemE at h
  by_cases h0 : 0 ≤ idx
  · rw [if_neg (not_not_intro h0)] at h
    by_cases hz : d = none ∨ d = some (zeroBlock s.block_size)
    · rw [if_pos hz] at h
      injection h with h
      exact h.symm
    · rw [if_neg hz] at h
      rcases d with _ | dd
      · exact absurd (Or.inl rfl) hz
      · dsimp only at h
        by_cases hlen : s.block_size < dd.length
        · rw [if_pos hlen] at h
          cases h
        · rw [if_neg hlen] at h
          injection h with h
          exact h.symm
  · rw [if_pos h0] at h
    cases h

theorem foldl_set_none_block_size (l : List Nat) (st : BlockStorage) :
    (l.foldl (fun acc k => acc.set k none) st).block_size = st.block_size := by
  induction l generalizing st with
  | nil => rfl
  | cons x xs ih =>
    simp only [List.foldl_cons]
    rw [ih]
    exact set_block_size st x none

theorem foldl_set_none_mapGet (n : Nat) :
    ∀ (a j : Nat) (st : BlockStorage),
      mapGet ((List.range' a n).foldl (fun acc k => acc.set k none) st).block_map j
        = if a ≤ j ∧ j < a + n then BLOCK_ZERO else mapGet st.block_map j := by
  induction n with
  | zero =>
    intro a j st
    rw [if_neg (by omega)]
    rfl
  | succ n ih =>
    intro a j st
    rw [List.range'_succ]
    simp only [List.foldl_cons]
    rw [ih (a + 1) j (st.set a none)]
    by_cases hj : j = a
    · subst hj
      rw [if_neg (by omega), if_pos (by omega)]
      exact set_zero_mapGet_self st j none (Or.inl rfl)
    · by_cases hc : a + 1 ≤ j ∧ j < a + 1 + n
      · rw [if_pos hc, if_pos (by omega)]
      · rw [if_neg hc, if_neg (by omega)]
        exact set_mapGet_ne st a none hj

theorem foldl_set_none_MapOK (l : List Nat) (st : BlockStorage) (h : MapOK st) :
    MapOK (l.foldl (fun acc k => acc.set k none) st) := by
  induction l generalizing st with
  | nil => exact h
  | cons x xs ih =>
    simp only [List.foldl_cons]
    exact ih _ (MapOK_set st x none h)

end BlockStorage

namespace BlockCachedFile

theorem block_size_eq (t : BlockCachedFile) : t.block_size = t.storage.block_size := rfl

theorem padStart_block_size (st : BlockStorage) (c : Option (Nat × Nat × Nat)) :
    (padStart st c).block_size = st.block_size := by
  rcases c with _ | ⟨i, sp, e⟩
  · rfl
  · simp only [padStart]
    by_cases h : sp = 0
    · rw [if_pos h]
      exact BlockStorage.set_block_size st i none
    · rw [if_neg h]

theorem padMid_block_size (st : BlockStorage) (c : Option (Nat × Nat)) :
    (padMid st c).block_size = st.block_size := by
  rcases c with _ | ⟨a, b⟩
  · rfl
  · exact BlockStorage.foldl_set_none_block_size _ st

theorem padEnd_block_size (st : BlockStorage) (c : Option (Nat × Nat)) :
    (padEnd st c).block_size = st.block_size := by
  rcases c with _ | ⟨i, e⟩
  · rfl
  · exact BlockStorage.set_block_size st i none

theorem padStart_present_mono (st : BlockStorage) (c : Option (Nat × Nat × Nat))
    {j : Nat} (h : BlockStorage.Present st j) : BlockStorage.Present (padStart st c) j := by
  rcases c with _ | ⟨i, sp, e⟩
  · exact h
  · simp only [padStart]
    by_cases h0 : sp = 0
    · rw [if_pos h0]
      exact BlockStorage.set_present_mono st i none h
    · rw [if_neg h0]
      exact h

theorem padMid_present_mono (st : BlockStorage) (c : Option (Nat × Nat))
    {j : Nat} (h : BlockStorage.Present st j) : BlockStorage.Present (padMid st c) j := by
  rcases c with _ | ⟨a, b⟩
  · exact h
  · unfold padMid
    unfold BlockStorage.Present at *
    rw [BlockStorage.foldl_set_none_mapGet]
    by_cases hc : a ≤ j ∧ j < a + (b - a)
    · rw [if_pos hc]
      rw [BLOCK_ZERO, BLOCK_UNALLOCATED]
      omega
    · rw [if_neg hc]
      exact h

theorem padEnd_present_mono (st : BlockStorage) (c : Option (Nat × Nat))
    {j : Nat} (h : BlockStorage.Present st j) : BlockStorage.Present (padEnd st c) j := by
  rcases c with _ | ⟨i, e⟩
  · exact h
  · exact BlockStorage.set_present_mono st i none h

theorem padStart_MapOK (st : BlockStorage) (c : Option (Nat × Nat × Nat))
    (h : BlockStorage.MapOK st) : BlockStorage.MapOK (padStart st c) := by
  rcases c with _ | ⟨i, sp, e⟩
  · exact h
  · simp only [padStart]
    by_cases h0 : sp = 0
    · rw [if_pos h0]
      exact BlockStorage.MapOK_set st i none h
    · rw [if_neg h0]
      exact h

theorem padMid_MapOK (st : BlockStorage) (c : Option (Nat × Nat))
    (h : BlockStorage.MapOK st) : BlockStorage.MapOK (padMid st c) := by
  rcases c with _ | ⟨a, b⟩
  · exact h
  · exact BlockStorage.foldl_set_none_MapOK _ st h

theorem padEnd_MapOK (st : BlockStorage) (c : Option (Nat × Nat))
    (h : BlockStorage.MapOK st) : BlockStorage.MapOK (padEnd st c) := by
  rcases c with _ | ⟨i, e⟩
  · exact h
  · exact BlockStorage.MapOK_set st i none h

theorem pad_file_block_size (t : BlockCachedFile) (n : Nat) :
    (pad_file t n).block_size = t.block_size := by
  unfold pad_file
  by_cases h : n ≤ t.size
  · rw [if_pos h]
  · rw [if_neg h]
    rw [block_size_eq, block_size_eq]
    show (padEnd (padMid (padStart _ _) _) _).block_size = _
    rw [padEnd_block_size, padMid_block_size, padStart_block_size]

theorem pad_file_fields (t : BlockCachedFile) (n : Nat) :
    (pad_file t n).cache_size = t.cache_size ∧
    (pad_file t n).first_uncached_block = t.first_uncached_block ∧
    (pad_file t n).size = max t.size n := by
  unfold pad_file
  by_cases h : n ≤ t.size
  · rw [if_pos h]
    exact ⟨rfl, rfl, by omega⟩
  · rw [if_neg h]
    exact ⟨rfl, rfl, by show n = max t.size n; omega⟩

theorem pad_file_present_mono (t : BlockCachedFile) (n : Nat)
    {j : Nat} (h : BlockStorage.Present t.storage j) :
    BlockStorage.Present (pad_file t n).storage j := by
  unfold pad_file
  by_cases hle : n ≤ t.size
  · rw [if_pos hle]
    exact h
  · rw [if_neg hle]
    exact padEnd_present_mono _ _ (padMid_present_mono _ _ (padStart_present_mono _ _ h))

theorem pad_file_MapOK (t : BlockCachedFile) (n : Nat)
    (h : BlockStorage.MapOK t.storage) : BlockStorage.MapOK (pad_file t n).storage := by
  unfold pad_file
  by_cases hle : n ≤ t.size
  · rw [if_pos hle]
    exact h
  · rw [if_neg hle]
    exact padEnd_MapOK _ _ (padMid_MapOK _ _ (padStart_MapOK _ _ h))

theorem pad_storage_zero (st : BlockStorage) (off n : Nat) (hbs : 0 < st.block_size)
    (hlt : off < n) :
    ∀ i, off ≤ i * st.block_size → i * st.block_size < n →
      mapGet (padEnd
        (padMid (padStart st (block_range off (n - off) st.block_size none).1)
          (block_range off (n - off) st.block_size none).2.1)
        (block_range off (n - off) st.block_size none).2.2).block_map i = BLOCK_ZERO := by
  intro i h1 h2
  have hclamp : clampLen off (n - off) none = n - off := clampLen_none _ _
  have hpe : promoEnd off (clampLen off (n - off) none) st.block_size none
      = ((off + (n - off)) / st.block_size, (off + (n - off)) % st.block_size) := by
    rw [hclamp, promoEnd_none]
  have hL : 0 < clampLen off (n - off) none := by rw [hclamp]; omega
  have hdm := Nat.div_add_mod (off + (n - off)) st.block_size
  have hmlt : (off + (n - off)) % st.block_size < st.block_size := Nat.mod_lt _ hbs
  have hcm : st.block_size * ((off + (n - off)) / st.block_size)
      = ((off + (n - off)) / st.block_size) * st.block_size := Nat.mul_comm _ _
  by_cases he : off / st.block_size
      = (promoEnd off (clampLen off (n - off) none) st.block_size none).1
  · obtain ⟨hA, hB, hC, hD, hres⟩ :=
      block_range_single off (n - off) st.block_size none hbs hL he
    rw [hpe] at hA hB hD hres
    dsimp only at hA hB hD hres
    rw [hclamp] at hD
    rw [hres]
    simp only [padStart, padMid, padEnd]
    have hieq : i = off / st.block_size := by
      have hgt1 : (off / st.block_size) * st.block_size ≤ i * st.block_size := by omega
      have hx : (off / st.block_size + 1) * st.block_size
          = (off / st.block_size) * st.block_size + st.block_size := by ring
      have hub : i * st.block_size < (off / st.block_size + 1) * st.block_size := by omega
      have hge : off / st.block_size ≤ i := Nat.le_of_mul_le_mul_right hgt1 hbs
      have hlt2 : i < off / st.block_size + 1 := Nat.lt_of_mul_lt_mul_right hub
      omega
    subst hieq
    have hsp0 : off % st.block_size = 0 := by omega
    rw [if_pos hsp0]
    exact BlockStorage.set_zero_mapGet_self st _ none (Or.inl rfl)
  · obtain ⟨hA, hC, hsp', hres⟩ :=
      block_range_multi off (n - off) st.block_size none hbs hL he
    rw [hpe] at hA hres
    dsimp only at hA hres
    have hile : i ≤ (off + (n - off)) / st.block_size := by
      have hx : ((off + (n - off)) / st.block_size + 1) * st.block_size
          = ((off + (n - off)) / st.block_size) * st.block_size + st.block_size := by ring
      have hib : i * st.block_size
          < ((off + (n - off)) / st.block_size + 1) * st.block_size := by omega
      exact Nat.lt_succ_iff.mp (Nat.lt_of_mul_lt_mul_right hib)
    by_cases hsp0 : off % st.block_size = 0
    · have hioff : off / st.block_size ≤ i := by
        have hx : (off / st.block_size) * st.block_size ≤ i * st.block_size := by omega
        exact Nat.le_of_mul_le_mul_right hx hbs
      rw [if_pos hsp0, if_pos hsp0] at hres
      rw [hres]
      by_cases hep0 : (off + (n - off)) % st.block_size = 0
      · rw [if_pos hep0]
        simp only [padStart, padMid, padEnd]
        have hiub : i < (off + (n - off)) / st.block_size := by
          have hx : i * st.block_size
              < ((off + (n - off)) / st.block_size) * st.block_size := by omega
          exact Nat.lt_of_mul_lt_mul_right hx
        rw [BlockStorage.foldl_set_none_mapGet]
        rw [if_pos (by omega)]
      · rw [if_neg hep0]
        simp only [padStart, padMid, padEnd]
        by_cases hieb : i = (off + (n - off)) / st.block_size
        · subst hieb
          exact BlockStorage.set_zero_mapGet_self _ _ none (Or.inl rfl)
        · rw [BlockStorage.set_mapGet_ne _ _ _ hieb]
          rw [BlockStorage.foldl_set_none_mapGet]
          rw [if_pos (by omega)]
    · have hioff : off / st.block_size + 1 ≤ i := by
        have hx : (off / st.block_size) * st.block_size < i * st.block_size := by omega
        have := Nat.lt_of_mul_lt_mul_right hx
        omega
      rw [if_neg hsp0, if_neg hsp0] at hres
      rw [hres]
      by_cases hmid : off / st.block_size + 1 < (off + (n - off)) / st.block_size
      · rw [if_pos hmid]
        by_cases hep0 : (off + (n - off)) % st.block_size = 0
        · rw [if_pos hep0]
          simp only [padStart, padMid, padEnd]
          rw [if_neg hsp0]
          have hiub : i < (off + (n - off)) / st.block_size := by
            have hx : i * st.block_size
                < ((off + (n - off)) / st.block_size) * st.block_size := by omega
            exact Nat.lt_of_mul_lt_mul_right hx
          rw [BlockStorage.foldl_set_none_mapGet]
          rw [if_pos (by omega)]
        · rw [if_neg hep0]
          simp only [padStart, padMid, padEnd]
          rw [if_neg hsp0]
          by_cases hieb : i = (off + (n - off)) / st.block_size
          · subst hieb
            exact BlockStorage.set_zero_mapGet_self _ _ none (Or.inl rfl)
          · rw [BlockStorage.set_mapGet_ne _ _ _ hieb]
            rw [BlockStorage.foldl_set_none_mapGet]
            rw [if_pos (by omega)]
      · rw [if_neg hmid]
        by_cases hep0 : (off + (n - off)) % st.block_size = 0
        · rw [if_pos hep0]
          exfalso
          have hiub : i < (off + (n - off)) / st.block_size := by
            have hx : i * st.block_size
                < ((off + (n - off)) / st.block_size) * st.block_size := by omega
            exact Nat.lt_of_mul_lt_mul_right hx
          omega
        · rw [if_neg hep0]
          simp only [padStart, padMid, padEnd]
          rw [if_neg hsp0]
          have hieb : i = (off + (n - off)) / st.block_size := by omega
          subst hieb
          exact BlockStorage.set_zero_mapGet_self _ _ none (Or.inl rfl)

theorem pad_file_zero (t : BlockCachedFile) (n : Nat) (hbs : 0 < t.block_size) :
    ∀ i, t.size ≤ i * t.block_size → i * t.block_size < n →
      mapGet (pad_file t n).storage.block_map i = BLOCK_ZERO := by
  intro i h1 h2
  have hlt : t.size < n := by
    calc t.size ≤ i * t.block_size := h1
    _ < n := h2
  unfold pad_file
  rw [if_neg (by omega)]
  exact pad_storage_zero t.storage t.size n hbs hlt i h1 h2

theorem pad_file_present_new (t : BlockCachedFile) (n : Nat) (hbs : 0 < t.block_size) :
    ∀ i, t.size ≤ i * t.block_size → i * t.block_size < n →
      BlockStorage.Present (pad_file t n).storage i := by
  intro i h1 h2
  unfold BlockStorage.Present
  rw [pad_file_zero t n hbs i h1 h2]
  rw [BLOCK_ZERO, BLOCK_UNALLOCATED]
  omega

end BlockCachedFile

namespace BlockStorage

theorem truncate_present (s : BlockStorage) (n j : Nat) :
    Present (s.truncate n) j ↔ (j < n ∧ Present s j) := by
  unfold Present
  rw [truncate_block_map]
  by_cases hj : j < n
  · rw [mapGet_take_lt _ _ _ hj]
    simp [hj]
  · rw [mapGet_take_ge _ _ _ (by omega)]
    simp [hj]

end BlockStorage

namespace BlockCachedFile

theorem receiveLoop_succ (bs : Nat) (data : Bytes) (ds a n : Nat)
    (st : BlockStorage) (i : Nat) :
    receiveLoop bs data ds a (n + 1) st i =
      receiveLoop bs data ds (a + 1) n
        (if BlockStorage.Present st a then st else st.set a ((data.drop i).take bs))
        (i + min bs (ds - i)) := by
  unfold receiveLoop
  rw [List.range'_succ]
  simp only [List.foldl_cons]

theorem receiveLoop_present_mono (bs : Nat) (data : Bytes) (ds : Nat) (n : Nat) :
    ∀ a (st : BlockStorage) i j, BlockStorage.Present st j →
      BlockStorage.Present (receiveLoop bs data ds a n st i).1 j := by
  induction n with
  | zero => intro a st i j h; exact h
  | succ n ih =>
    intro a st i j h
    rw [receiveLoop_succ]
    apply ih
    by_cases hp : BlockStorage.Present st a
    · rw [if_pos hp]
      exact h
    · rw [if_neg hp]
      exact BlockStorage.set_present_mono st a _ h

theorem receiveLoop_present (bs : Nat) (data : Bytes) (ds : Nat) (n : Nat) :
    ∀ a (st : BlockStorage) i j, a ≤ j → j < a + n →
      BlockStorage.Present (receiveLoop bs data ds a n st i).1 j := by
  induction n with
  | zero => intro a st i j h1 h2; omega
  | succ n ih =>
    intro a st i j h1 h2
    rw [receiveLoop_succ]
    by_cases hj : j = a
    · subst hj
      apply receiveLoop_present_mono
      by_cases hp : BlockStorage.Present st j
      · rw [if_pos hp]
        exact hp
      · rw [if_neg hp]
        exact BlockStorage.set_present_self st j _
    · exact ih (a + 1) _ _ j (by omega) (by omega)

theorem receiveLoop_block_size (bs : Nat) (data : Bytes) (ds : Nat) (n : Nat) :
    ∀ a (st : BlockStorage) i,
      (receiveLoop bs data ds a n st i).1.block_size = st.block_size := by
  induction n with
  | zero => intro a st i; rfl
  | succ n ih =>
    intro a st i
    rw [receiveLoop_succ, ih]
    by_cases hp : BlockStorage.Present st a
    · rw [if_pos hp]
    · rw [if_neg hp]
      exact BlockStorage.set_block_size st a _

theorem receiveLoop_MapOK (bs : Nat) (data : Bytes) (ds : Nat) (n : Nat) :
    ∀ a (st : BlockStorage) i, BlockStorage.MapOK st →
      BlockStorage.MapOK (receiveLoop bs data ds a n st i).1 := by
  induction n with
  | zero => intro a st i h; exact h
  | succ n ih =>
    intro a st i h
    rw [receiveLoop_succ]
    apply ih
    by_cases hp : BlockStorage.Present st a
    · rw [if_pos hp]
      exact h
    · rw [if_neg hp]
      exact BlockStorage.MapOK_set st a _ h

theorem receive_cases (t : BlockCachedFile) (off : Nat) (dl : List Bytes) :
    (∀ j, BlockStorage.Present t.storage j →
      BlockStorage.Present (t.receive_cached_data off dl).1.storage j) ∧
    (BlockStorage.MapOK t.storage →
      BlockStorage.MapOK (t.receive_cached_data off dl).1.storage) ∧
    (t.receive_cached_data off dl).1.size = t.size ∧
    (t.receive_cached_data off dl).1.cache_size = t.cache_size ∧
    (t.receive_cached_data off dl).1.block_size = t.block_size ∧
    t.first_uncached_block ≤ (t.receive_cached_data off dl).1.first_uncached_block := by
  unfold receive_cached_data
  rcases hbr : block_range off ((dl.map List.length).sum) t.block_size
      (some t.cache_size) with ⟨c1, c2, c3⟩
  rcases c2 with _ | ⟨a, b⟩
  · exact ⟨fun j h => h, fun h => h, rfl, rfl, rfl, le_refl _⟩
  · dsimp only
    refine ⟨?mono, ?mapok, rfl, rfl, ?bs, ?fub⟩
    · intro j h
      exact receiveLoop_present_mono _ _ _ _ _ _ _ _ h
    · intro h
      exact receiveLoop_MapOK _ _ _ _ _ _ _ h
    · rw [block_size_eq, block_size_eq]
      exact receiveLoop_block_size _ _ _ _ _ _ _
    · by_cases hc : a ≤ t.first_uncached_block
      · rw [if_pos hc]
        omega
      · rw [if_neg hc]

theorem receive_mid_present (t : BlockCachedFile) (off : Nat) (dl : List Bytes)
    (a b : Nat)
    (hmid : (block_range off ((dl.map List.length).sum) t.block_size
      (some t.cache_size)).2.1 = some (a, b)) :
    ∀ j, a ≤ j → j < b →
      BlockStorage.Present (t.receive_cached_data off dl).1.storage j := by
  intro j h1 h2
  unfold receive_cached_data
  rcases hbr : block_range off ((dl.map List.length).sum) t.block_size
      (some t.cache_size) with ⟨c1, c2, c3⟩
  rw [hbr] at hmid
  dsimp only at hmid
  subst hmid
  dsimp only
  exact receiveLoop_present _ _ _ _ _ _ _ j h1 (by omega)

theorem receive_fub (t : BlockCachedFile) (off : Nat) (dl : List Bytes)
    (a b : Nat)
    (hmid : (block_range off ((dl.map List.length).sum) t.block_size
      (some t.cache_size)).2.1 = some (a, b)) :
    (t.receive_cached_data off dl).1.first_uncached_block =
      if a ≤ t.first_uncached_block then max t.first_uncached_block b
      else t.first_uncached_block := by
  unfold receive_cached_data
  rcases hbr : block_range off ((dl.map List.length).sum) t.block_size
      (some t.cache_size) with ⟨c1, c2, c3⟩
  rw [hbr] at hmid
  dsimp only at hmid
  subst hmid
  dsimp only

theorem truncate_cases (t : BlockCachedFile) (n : Nat) :
    t.truncate n =
      if n < t.size then
        ⟨t.storage.truncate (cdN n t.block_size), n, min t.cache_size n,
          t.first_uncached_block⟩
      else if t.size < n then
        ⟨(t.pad_file n).storage, (t.pad_file n).size,
          min (t.pad_file n).cache_size n, (t.pad_file n).first_uncached_block⟩
      else ⟨t.storage, t.size, min t.cache_size n, t.first_uncached_block⟩ := by
  unfold truncate
  by_cases h1 : n < t.size
  · rw [if_pos h1, if_pos h1]
  · rw [if_neg h1, if_neg h1]
    by_cases h2 : t.size < n
    · rw [if_pos h2, if_pos h2]
    · rw [if_neg h2, if_neg h2]

end BlockCachedFile

theorem pure_ok {e : Type} {a : Type} (x : a) : (pure x : Except e a) = .ok x := rfl

namespace BlockCachedFile

theorem writeStart_ok (st : BlockStorage) (data : Bytes) (c : Option (Nat × Nat × Nat))
    (q : BlockStorage × Nat) (h : writeStart st data c = .ok q) :
    q.1.block_size = st.block_size ∧
    (BlockStorage.MapOK st → BlockStorage.MapOK q.1) ∧
    (∀ j, BlockStorage.Present st j → BlockStorage.Present q.1 j) := by
  rcases c with _ | ⟨sb, sp, ep⟩
  · cases h
    exact ⟨rfl, fun h2 => h2, fun j h2 => h2⟩
  · simp only [writeStart] at h
    cases hget : st.get sb with
    | error e => rw [hget, except_bind_err] at h; cases h
    | ok block =>
      simp only [hget, except_bind_ok] at h
      cases hset : st.setitemE (sb : Int)
          (some (block.take sp ++ data.take (ep - sp) ++ block.drop ep)) with
      | error e => rw [hset, except_bind_err] at h; cases h
      | ok st2 =>
        simp only [hset, except_bind_ok, pure_ok] at h
        have hq : (st2, ep - sp) = q := Except.ok.inj h
        subst hq
        have hs := BlockStorage.setitemE_ok hset
        rw [Int.toNat_natCast] at hs
        subst hs
        exact ⟨BlockStorage.set_block_size st sb _,
          fun hm => BlockStorage.MapOK_set st sb _ hm,
          fun j hp => BlockStorage.set_present_mono st sb _ hp⟩

theorem writeMid_fold_props (bs : Nat) (data : Bytes) (l : List Nat) :
    ∀ q : BlockStorage × Nat,
      (l.foldl (fun q j => (q.1.set j ((data.drop q.2).take bs), q.2 + bs)) q).1.block_size
        = q.1.block_size ∧
      (BlockStorage.MapOK q.1 → BlockStorage.MapOK
        (l.foldl (fun q j => (q.1.set j ((data.drop q.2).take bs), q.2 + bs)) q).1) ∧
      (∀ j, BlockStorage.Present q.1 j → BlockStorage.Present
        (l.foldl (fun q j => (q.1.set j ((data.drop q.2).take bs), q.2 + bs)) q).1 j) := by
  induction l with
  | nil => intro q; exact ⟨rfl, fun h => h, fun j h => h⟩
  | cons x xs ih =>
    intro q
    simp only [List.foldl_cons]
    obtain ⟨hbs, hm, hp⟩ := ih (q.1.set x ((data.drop q.2).take bs), q.2 + bs)
    refine ⟨?b, ?m, ?p⟩
    · rw [hbs]
      exact BlockStorage.set_block_size q.1 x _
    · intro hmq
      exact hm (BlockStorage.MapOK_set q.1 x _ hmq)
    · intro j hj
      exact hp j (BlockStorage.set_present_mono q.1 x _ hj)

theorem writeMid_props (bs : Nat) (data : Bytes) (q : BlockStorage × Nat)
    (c : Option (Nat × Nat)) :
    (writeMid bs data q c).1.block_size = q.1.block_size ∧
    (BlockStorage.MapOK q.1 → BlockStorage.MapOK (writeMid bs data q c).1) ∧
    (∀ j, BlockStorage.Present q.1 j →
      BlockStorage.Present (writeMid bs data q c).1 j) := by
  rcases c with _ | ⟨a, b⟩
  · exact ⟨rfl, fun h => h, fun j h => h⟩
  · simp only [writeMid]
    exact writeMid_fold_props bs data _ q

theorem writeEnd_ok (data : Bytes) (q : BlockStorage × Nat) (c : Option (Nat × Nat))
    (st2 : BlockStorage) (h : writeEnd data q c = .ok st2) :
    st2.block_size = q.1.block_size ∧
    (BlockStorage.MapOK q.1 → BlockStorage.MapOK st2) ∧
    (∀ j, BlockStorage.Present q.1 j → BlockStorage.Present st2 j) := by
  rcases c with _ | ⟨eb, ep⟩
  · cases h
    exact ⟨rfl, fun h2 => h2, fun j h2 => h2⟩
  · simp only [writeEnd] at h
    cases hget : q.1.get eb with
    | error e => rw [hget, except_bind_err] at h; cases h
    | ok block =>
      simp only [hget, except_bind_ok] at h
      have hs := BlockStorage.setitemE_ok h
      rw [Int.toNat_natCast] at hs
      subst hs
      exact ⟨BlockStorage.set_block_size q.1 eb _,
        fun hm => BlockStorage.MapOK_set q.1 eb _ hm,
        fun j hp => BlockStorage.set_present_mono q.1 eb _ hp⟩

theorem write_ok_props (t : BlockCachedFile) (off : Nat) (data : Bytes)
    (t' : BlockCachedFile) (hbs : 0 < t.block_size)
    (h : t.write off data = .ok t') :
    t'.block_size = t.block_size ∧
    t'.cache_size = t.cache_size ∧
    t'.first_uncached_block = t.first_uncached_block ∧
    t'.size = max t.size (if data.length = 0 then off else off + data.length) ∧
    (BlockStorage.MapOK t.storage → BlockStorage.MapOK t'.storage) ∧
    (∀ j, BlockStorage.Present t.storage j → BlockStorage.Present t'.storage j) ∧
    (∀ i, t.size ≤ i * t.block_size → i * t.block_size < t'.size →
      BlockStorage.Present t'.storage i) := by
  simp only [write] at h
  by_cases hlen : data.length = 0
  · rw [if_pos hlen] at h
    by_cases hoff : t.size < off
    · rw [if_pos hoff] at h
      have ht' : t.pad_file off = t' := Except.ok.inj h
      subst ht'
      obtain ⟨hc, hf, hsz⟩ := pad_file_fields t off
      have hcov : ∀ i, t.size ≤ i * t.block_size →
          i * t.block_size < (t.pad_file off).size →
          BlockStorage.Present (t.pad_file off).storage i := by
        intro i h1 h2
        rw [hsz] at h2
        exact pad_file_present_new t off hbs i h1 (by omega)
      exact ⟨pad_file_block_size t off, hc, hf, by rw [hsz, if_pos hlen],
        pad_file_MapOK t off, fun j hp => pad_file_present_mono t off hp, hcov⟩
    · rw [if_neg hoff] at h
      have ht' : t = t' := Except.ok.inj h
      subst ht'
      exact ⟨rfl, rfl, rfl, by rw [if_pos hlen]; omega, fun hm => hm,
        fun j hp => hp, fun i h1 h2 => by omega⟩
  · rw [if_neg hlen] at h
    generalize ht1 : (if t.size < off then t.pad_file off else t) = T1 at h
    have hT1 : T1.block_size = t.block_size ∧ T1.cache_size = t.cache_size ∧
        T1.first_uncached_block = t.first_uncached_block ∧ T1.size = max t.size off ∧
        (BlockStorage.MapOK t.storage → BlockStorage.MapOK T1.storage) ∧
        (∀ j, BlockStorage.Present t.storage j → BlockStorage.Present T1.storage j) ∧
        (∀ i, t.size ≤ i * t.block_size → i * t.block_size < T1.size →
          BlockStorage.Present T1.storage i) := by
      by_cases hoff : t.size < off
      · rw [if_pos hoff] at ht1
        subst ht1
        obtain ⟨hc, hf, hsz⟩ := pad_file_fields t off
        have hcov : ∀ i, t.size ≤ i * t.block_size →
            i * t.block_size < (t.pad_file off).size →
            BlockStorage.Present (t.pad_file off).storage i := by
          intro i h1 h2
          rw [hsz] at h2
          exact pad_file_present_new t off hbs i h1 (by omega)
        exact ⟨pad_file_block_size t off, hc, hf, hsz, pad_file_MapOK t off,
          fun j hp => pad_file_present_mono t off hp, hcov⟩
      · rw [if_neg hoff] at ht1
        subst ht1
        exact ⟨rfl, rfl, rfl, by omega, fun hm => hm, fun j hp => hp,
          fun i h1 h2 => by omega⟩
    obtain ⟨hT1bs, hT1c, hT1f, hT1sz, hT1m, hT1p, hT1cov⟩ := hT1
    have hT2bs : (T1.pad_file (off + data.length)).block_size = t.block_size := by
      rw [pad_file_block_size, hT1bs]
    obtain ⟨hT2c, hT2f, hT2sz⟩ := pad_file_fields T1 (off + data.length)
    cases hq1 : writeStart (T1.pad_file (off + data.length)).storage data
        (block_range off data.length T1.block_size none).1 with
    | error e => rw [hq1, except_bind_err] at h; cases h
    | ok q1 =>
      simp only [hq1, except_bind_ok] at h
      cases hst : writeEnd data (writeMid T1.block_size data q1
          (block_range off data.length T1.block_size none).2.1)
          (block_range off data.length T1.block_size none).2.2 with
      | error e => rw [hst, except_bind_err] at h; cases h
      | ok st2 =>
        simp only [hst, except_bind_ok] at h
        have ht' : { T1.pad_file (off + data.length) with storage := st2 } = t' :=
          Except.ok.inj h
        subst ht'
        obtain ⟨hq1bs, hq1m, hq1p⟩ := writeStart_ok _ _ _ _ hq1
        obtain ⟨hmbs, hmm, hmp⟩ := writeMid_props T1.block_size data q1
          (block_range off data.length T1.block_size none).2.1
        obtain ⟨hebs, hem, hep⟩ := writeEnd_ok _ _ _ _ hst
        have hbs2 : st2.block_size = t.block_size := by
          rw [hebs, hmbs, hq1bs]
          exact hT2bs
        have hmono : ∀ j, BlockStorage.Present t.storage j →
            BlockStorage.Present st2 j := by
          intro j hp
          exact hep j (hmp j (hq1p j (pad_file_present_mono T1 _ (hT1p j hp))))
        refine ⟨hbs2, ?hcc, ?hff, ?hss, ?hmm2, hmono, ?hvv⟩
        · show (T1.pad_file (off + data.length)).cache_size = t.cache_size
          rw [hT2c, hT1c]
        · show (T1.pad_file (off + data.length)).first_uncached_block
            = t.first_uncached_block
          rw [hT2f, hT1f]
        · show (T1.pad_file (off + data.length)).size = _
          rw [hT2sz, hT1sz, if_neg hlen]
          omega
        · intro hm
          exact hem (hmm (hq1m (pad_file_MapOK T1 _ (hT1m hm))))
        · intro i h1 h2
          have h2' : i * t.block_size < (T1.pad_file (off + data.length)).size := h2
          rw [hT2sz] at h2'
          by_cases hi1 : i * t.block_size < T1.size
          · exact hep _ (hmp _ (hq1p _
              (pad_file_present_mono T1 _ (hT1cov i h1 hi1))))
          · have hpres : BlockStorage.Present
                (T1.pad_file (off + data.length)).storage i := by
              apply pad_file_present_new T1 (off + data.length)
                (by rw [hT1bs]; exact hbs)
              · rw [hT1bs]; omega
              · rw [hT1bs]; omega
            exact hep _ (hmp _ (hq1p _ hpres))

theorem readPart_none (st : BlockStorage) : readPart st none = .ok [] := rfl

theorem readMid_none (st : BlockStorage) : readMid st none = .ok [] := rfl

theorem readEnd_none (st : BlockStorage) : readEnd st none = .ok [] := rfl

theorem readMid_fold (st : BlockStorage) (hm : BlockStorage.MapOK st) (n : Nat) :
    ∀ (a : Nat) (acc : Bytes), (∀ j, a ≤ j → j < a + n → BlockStorage.Present st j) →
      ∃ d, (List.range' a n).foldlM
          (fun acc j => do
            let blk ← st.get j
            pure (acc ++ blk)) acc = .ok d ∧
        d.length = acc.length + n * st.block_size := by
  induction n with
  | zero =>
    intro a acc hpres
    exact ⟨acc, rfl, by omega⟩
  | succ n ih =>
    intro a acc hpres
    rw [List.range'_succ, List.foldlM_cons]
    obtain ⟨b, hget, hblen⟩ := BlockStorage.get_ok st a hm (hpres a (by omega) (by omega))
    simp only [hget, except_bind_ok]
    obtain ⟨d, hd, hdlen⟩ := ih (a + 1) (acc ++ b) (fun j h1 h2 => hpres j (by omega) (by omega))
    refine ⟨d, hd, ?_⟩
    rw [hdlen]
    simp only [List.length_append]
    have hx : (n + 1) * st.block_size = n * st.block_size + st.block_size := by ring
    omega

theorem readMid_ok (st : BlockStorage) (hm : BlockStorage.MapOK st) (a b2 : Nat)
    (hpres : ∀ j, a ≤ j → j < b2 → BlockStorage.Present st j) :
    ∃ d, readMid st (some (a, b2)) = .ok d ∧ d.length = (b2 - a) * st.block_size := by
  simp only [readMid]
  obtain ⟨d, hd, hlen⟩ := readMid_fold st hm (b2 - a) a []
    (fun j h1 h2 => hpres j h1 (by omega))
  exact ⟨d, hd, by simpa using hlen⟩

theorem read_ok_of_present (t : BlockCachedFile) (off len : Nat)
    (hbs : 0 < t.block_size) (hm : BlockStorage.MapOK t.storage)
    (hpres0 : ¬ min (t.size - off) len = 0 → ∀ i, off / t.block_size ≤ i →
      i * t.block_size < off + min (t.size - off) len →
      BlockStorage.Present t.storage i) :
    ∃ d, t.read off len = .ok d ∧ d.length = min (t.size - off) len := by
  simp only [read]
  by_cases hL0 : min (t.size - off) len = 0
  · rw [if_pos hL0]
    exact ⟨[], rfl, by rw [hL0]; rfl⟩
  · rw [if_neg hL0]
    have hpres := hpres0 hL0
    rw [block_size_eq] at hbs hpres
    generalize hL : min (t.size - off) len = L at hL0 hpres ⊢
    have hclamp : clampLen off L none = L := clampLen_none _ _
    have hpe : promoEnd off (clampLen off L none) t.storage.block_size none
        = ((off + L) / t.storage.block_size, (off + L) % t.storage.block_size) := by
      rw [hclamp, promoEnd_none]
    have hLpos : 0 < clampLen off L none := by rw [hclamp]; omega
    have hdm := Nat.div_add_mod (off + L) t.storage.block_size
    have hmlt : (off + L) % t.storage.block_size < t.storage.block_size :=
      Nat.mod_lt _ hbs
    have hcm : t.storage.block_size * ((off + L) / t.storage.block_size)
        = ((off + L) / t.storage.block_size) * t.storage.block_size := Nat.mul_comm _ _
    have hsdm := Nat.div_add_mod off t.storage.block_size
    have hscm : t.storage.block_size * (off / t.storage.block_size)
        = (off / t.storage.block_size) * t.storage.block_size := Nat.mul_comm _ _
    by_cases he : off / t.storage.block_size
        = (promoEnd off (clampLen off L none) t.storage.block_size none).1
    · obtain ⟨hA, hB, hC, hD, hres⟩ :=
        block_range_single off L t.storage.block_size none hbs hLpos he
      rw [hpe] at hA hB hD hres
      dsimp only at hA hB hD hres
      rw [hclamp] at hD
      rw [block_size_eq, hres]
      obtain ⟨b1, hget, hblen⟩ := BlockStorage.get_ok t.storage (off / t.storage.block_size)
        hm (hpres _ (le_refl _) (by omega))
      simp only [readPart, readMid, readEnd, hget, except_bind_ok, pure_ok]
      refine ⟨_, rfl, ?_⟩
      simp only [List.length_append, List.length_nil, pySlice_length]
      omega
    · obtain ⟨hA, hC, hspb, hres⟩ :=
        block_range_multi off L t.storage.block_size none hbs hLpos he
      rw [hpe] at hA hres
      dsimp only at hA hres
      have hmul : (off / t.storage.block_size) * t.storage.block_size
          ≤ ((off + L) / t.storage.block_size) * t.storage.block_size :=
        Nat.mul_le_mul_right _ (le_of_lt hA)
      have hmidpres : ∀ (a2 : Nat), off / t.storage.block_size ≤ a2 →
          ∀ j, a2 ≤ j → j < (off + L) / t.storage.block_size →
          BlockStorage.Present t.storage j := by
        intro a2 ha2 j h1 h2
        apply hpres j (by omega)
        have hx : j * t.storage.block_size
            < ((off + L) / t.storage.block_size) * t.storage.block_size :=
          Nat.mul_lt_mul_of_lt_of_le h2 (le_refl _) hbs
        omega
      by_cases hsp0 : off % t.storage.block_size = 0
      · rw [if_pos hsp0, if_pos hsp0] at hres
        obtain ⟨d2, hd2, hd2len⟩ := readMid_ok t.storage hm (off / t.storage.block_size)
          ((off + L) / t.storage.block_size) (hmidpres _ (le_refl _))
        by_cases hep0 : (off + L) % t.storage.block_size = 0
        · rw [if_pos hep0] at hres
          rw [block_size_eq, hres]
          simp only [readPart, readEnd, hd2, except_bind_ok, pure_ok]
          refine ⟨_, rfl, ?_⟩
          simp only [List.length_append, List.length_nil]
          rw [hd2len]
          have hx : ((off + L) / t.storage.block_size - off / t.storage.block_size)
              * t.storage.block_size
              = ((off + L) / t.storage.block_size) * t.storage.block_size
                - (off / t.storage.block_size) * t.storage.block_size :=
            Nat.sub_mul _ _ _
          omega
        · rw [if_neg hep0] at hres
          rw [block_size_eq, hres]
          obtain ⟨b3, hget3, hb3len⟩ := BlockStorage.get_ok t.storage
            ((off + L) / t.storage.block_size) hm (hpres _ (by omega) (by omega))
          simp only [readPart, readEnd, hd2, hget3, except_bind_ok, pure_ok]
          refine ⟨_, rfl, ?_⟩
          simp only [List.length_append, List.length_nil, List.length_take]
          rw [hd2len]
          have hx : ((off + L) / t.storage.block_size - off / t.storage.block_size)
              * t.storage.block_size
              = ((off + L) / t.storage.block_size) * t.storage.block_size
                - (off / t.storage.block_size) * t.storage.block_size :=
            Nat.sub_mul _ _ _
          omega
      · rw [if_neg hsp0, if_neg hsp0] at hres
        obtain ⟨b1, hget1, hb1len⟩ := BlockStorage.get_ok t.storage
          (off / t.storage.block_size) hm (hpres _ (le_refl _) (by omega))
        have hstart : readPart t.storage (some (off / t.storage.block_size,
            off % t.storage.block_size, t.storage.block_size))
            = .ok (pySlice b1 (off % t.storage.block_size) t.storage.block_size) := by
          simp only [readPart, hget1, except_bind_ok, pure_ok]
        by_cases hmid2 : off / t.storage.block_size + 1 < (off + L) / t.storage.block_size
        · rw [if_pos hmid2] at hres
          have hmul2 : (off / t.storage.block_size + 1) * t.storage.block_size
              ≤ ((off + L) / t.storage.block_size) * t.storage.block_size :=
            Nat.mul_le_mul_right _ (le_of_lt hmid2)
          obtain ⟨d2, hd2, hd2len⟩ := readMid_ok t.storage hm
            (off / t.storage.block_size + 1) ((off + L) / t.storage.block_size)
            (hmidpres _ (by omega))
          by_cases hep0 : (off + L) % t.storage.block_size = 0
          · rw [if_pos hep0] at hres
            rw [block_size_eq, hres]
            simp only [readPart, readEnd, hget1, hd2, except_bind_ok, pure_ok]
            refine ⟨_, rfl, ?_⟩
            simp only [List.length_append, List.length_nil, pySlice_length]
            rw [hd2len]
            have hx : ((off + L) / t.storage.block_size - (off / t.storage.block_size + 1))
                * t.storage.block_size
                = ((off + L) / t.storage.block_size) * t.storage.block_size
                  - (off / t.storage.block_size + 1) * t.storage.block_size :=
              Nat.sub_mul _ _ _
            have hy : (off / t.storage.block_size + 1) * t.storage.block_size
                = (off / t.storage.block_size) * t.storage.block_size
                  + t.storage.block_size := by ring
            omega
          · rw [if_neg hep0] at hres
            rw [block_size_eq, hres]
            obtain ⟨b3, hget3, hb3len⟩ := BlockStorage.get_ok t.storage
              ((off + L) / t.storage.block_size) hm (hpres _ (by omega) (by omega))
            simp only [readPart, readEnd, hget1, hd2, hget3, except_bind_ok, pure_ok]
            refine ⟨_, rfl, ?_⟩
            simp only [List.length_append, List.length_nil, List.length_take,
              pySlice_length]
            rw [hd2len]
            have hx : ((off + L) / t.storage.block_size - (off / t.storage.block_size + 1))
                * t.storage.block_size
                = ((off + L) / t.storage.block_size) * t.storage.block_size
                  - (off / t.storage.block_size + 1) * t.storage.block_size :=
              Nat.sub_mul _ _ _
            have hy : (off / t.storage.block_size + 1) * t.storage.block_size
                = (off / t.storage.block_size) * t.storage.block_size
                  + t.storage.block_size := by ring
            omega
        · rw [if_neg hmid2] at hres
          have heb : (off + L) / t.storage.block_size = off / t.storage.block_size + 1 := by
            omega
          by_cases hep0 : (off + L) % t.storage.block_size = 0
          · rw [if_pos hep0] at hres
            rw [block_size_eq, hres]
            simp only [readPart, readMid, readEnd, hget1, except_bind_ok, pure_ok]
            refine ⟨_, rfl, ?_⟩
            simp only [List.length_append, List.length_nil, pySlice_length]
            have hy : ((off + L) / t.storage.block_size) * t.storage.block_size
                = (off / t.storage.block_size) * t.storage.block_size
                  + t.storage.block_size := by rw [heb]; ring
            omega
          · rw [if_neg hep0] at hres
            rw [block_size_eq, hres]
            obtain ⟨b3, hget3, hb3len⟩ := BlockStorage.get_ok t.storage
              ((off + L) / t.storage.block_size) hm (hpres _ (by omega) (by omega))
            simp only [readPart, readMid, readEnd, hget1, hget3, except_bind_ok, pure_ok]
            refine ⟨_, rfl, ?_⟩
            simp only [List.length_append, List.length_nil, List.length_take,
              pySlice_length]
            have hy : ((off + L) / t.storage.block_size) * t.storage.block_size
                = (off / t.storage.block_size) * t.storage.block_size
                  + t.storage.block_size := by rw [heb]; ring
            omega

theorem pre_read_none_of_present (t : BlockCachedFile) (o l : Nat)
    (hbs : 0 < t.block_size)
    (h : ∀ i, o / t.block_size ≤ i →
      i * t.block_size < o + min l (cdN t.cache_size t.block_size * t.block_size - o) →
      BlockStorage.Present t.storage i) :
    t.pre_read o l = none := by
  simp only [pre_read]
  by_cases hL0 : min l (cdN t.cache_size t.block_size * t.block_size - o) = 0
  · rw [if_pos hL0]
  · rw [if_neg hL0]
    have hall : ∀ x ∈ List.range'
        (max (o / t.block_size) t.first_uncached_block)
        (cdN (o + min l (cdN t.cache_size t.block_size * t.block_size - o)) t.block_size
          - max (o / t.block_size) t.first_uncached_block),
        (fun k => decide (BlockStorage.Present t.storage k)) x = true := by
      intro x hx
      rw [List.mem_range'_1] at hx
      have hx2 : x < cdN (o + min l
          (cdN t.cache_size t.block_size * t.block_size - o)) t.block_size := by omega
      have hxlt := (lt_cdN_iff hbs _ _).mp hx2
      simp only [decide_eq_true_eq]
      exact h x (by omega) hxlt
    rw [takeWhile_all _ _ hall, List.length_range']
    rw [if_pos (by omega)]

theorem pre_read_none_cases (t : BlockCachedFile) (o l : Nat)
    (hbs : 0 < t.block_size) (hnone : t.pre_read o l = none) :
    min l (cdN t.cache_size t.block_size * t.block_size - o) = 0 ∨
    ∀ i, max (o / t.block_size) t.first_uncached_block ≤ i →
      i * t.block_size < o + min l (cdN t.cache_size t.block_size * t.block_size - o) →
      (BlockStorage.Present t.storage i ∨ t.cache_size ≤ i * t.block_size) := by
  simp only [pre_read] at hnone
  by_cases hL0 : min l (cdN t.cache_size t.block_size * t.block_size - o) = 0
  · exact Or.inl hL0
  · right
    rw [if_neg hL0] at hnone
    intro i hi1 hi2
    set eb := cdN (o + min l (cdN t.cache_size t.block_size * t.block_size - o))
      t.block_size with heb
    set j0 := max (o / t.block_size) t.first_uncached_block with hj0
    set tw := (List.range' j0 (eb - j0)).takeWhile
      (fun k => decide (BlockStorage.Present t.storage k)) with htw
    have hieb : i < eb := by rw [heb]; exact (lt_cdN_iff hbs _ _).mpr hi2
    have htwlen : tw.length ≤ eb - j0 := by
      rw [htw]
      exact le_trans (takeWhile_le_len _ _) (by rw [List.length_range'])
    by_cases hj : eb ≤ j0 + tw.length
    · left
      have hp := range'_takeWhile_pred
        (fun k => decide (BlockStorage.Present t.storage k)) (eb - j0) j0 i hi1
        (by rw [← htw]; omega)
      simpa using hp
    · rw [if_neg hj] at hnone
      by_cases hij : i < j0 + tw.length
      · left
        have hp := range'_takeWhile_pred
          (fun k => decide (BlockStorage.Present t.storage k)) (eb - j0) j0 i hi1
          (by rw [← htw]; omega)
        simpa using hp
      · cases hfind : (List.range' (j0 + tw.length + 1) (eb - (j0 + tw.length + 1))).find?
            (fun k => decide (BlockStorage.Present t.storage k)) with
        | none =>
          rw [hfind, Option.getD_none] at hnone
          rw [if_neg hj] at hnone
          by_cases hpos : (j0 + tw.length) * t.block_size < t.cache_size
          · rw [if_pos hpos] at hnone
            cases hnone
          · right
            have hmul : (j0 + tw.length) * t.block_size ≤ i * t.block_size :=
              Nat.mul_le_mul_right _ (by omega)
            omega
        | some k =>
          have hk := List.mem_of_find?_eq_some hfind
          rw [List.mem_range'_1] at hk
          rw [hfind, Option.getD_some] at hnone
          rw [if_neg (by omega : ¬ k ≤ j0 + tw.length)] at hnone
          by_cases hpos : (j0 + tw.length) * t.block_size < t.cache_size
          · rw [if_pos hpos] at hnone
            cases hnone
          · right
            have hmul : (j0 + tw.length) * t.block_size ≤ i * t.block_size :=
              Nat.mul_le_mul_right _ (by omega)
            omega

theorem receive_inv3 (t : BlockCachedFile) (off : Nat) (dl : List Bytes)
    (hinv3 : ∀ i, i < t.first_uncached_block → i * t.block_size < t.size →
      BlockStorage.Present t.storage i) :
    ∀ i, i < (t.receive_cached_data off dl).1.first_uncached_block →
      i * t.block_size < t.size →
      BlockStorage.Present (t.receive_cached_data off dl).1.storage i := by
  intro i hi1 hi2
  unfold receive_cached_data at hi1 ⊢
  rcases hbr : block_range off ((dl.map List.length).sum) t.block_size
      (some t.cache_size) with ⟨c1, c2, c3⟩
  rw [hbr] at hi1
  rcases c2 with _ | ⟨a, b⟩
  · exact hinv3 i hi1 hi2
  · dsimp only at hi1 ⊢
    by_cases hc : a ≤ t.first_uncached_block
    · rw [if_pos hc] at hi1
      by_cases hif : i < t.first_uncached_block
      · exact receiveLoop_present_mono _ _ _ _ _ _ _ _ (hinv3 i hif hi2)
      · exact receiveLoop_present _ _ _ _ _ _ _ i (by omega) (by omega)
    · rw [if_neg hc] at hi1
      exact receiveLoop_present_mono _ _ _ _ _ _ _ _ (hinv3 i hi1 hi2)

theorem truncate_fields (t : BlockCachedFile) (n : Nat) :
    (t.truncate n).first_uncached_block = t.first_uncached_block ∧
    (t.truncate n).block_size = t.block_size ∧
    (t.truncate n).size = n ∧
    (t.truncate n).cache_size = min t.cache_size n := by
  rw [truncate_cases]
  by_cases h1 : n < t.size
  · rw [if_pos h1]
    exact ⟨rfl, rfl, rfl, rfl⟩
  · rw [if_neg h1]
    by_cases h2 : t.size < n
    · rw [if_pos h2]
      obtain ⟨hcch, hff, hssz⟩ := pad_file_fields t n
      refine ⟨hff, pad_file_block_size t n, by rw [hssz]; omega, by rw [hcch]⟩
    · rw [if_neg h2]
      exact ⟨rfl, rfl, by show t.size = n; omega, rfl⟩

theorem truncate_MapOK (t : BlockCachedFile) (n : Nat)
    (h : BlockStorage.MapOK t.storage) :
    BlockStorage.MapOK (t.truncate n).storage := by
  rw [truncate_cases]
  by_cases h1 : n < t.size
  · rw [if_pos h1]
    exact BlockStorage.MapOK_truncate _ _ h
  · rw [if_neg h1]
    by_cases h2 : t.size < n
    · rw [if_pos h2]
      exact pad_file_MapOK t n h
    · rw [if_neg h2]
      exact h

theorem truncate_present_of (t : BlockCachedFile) (n : Nat) (hbs : 0 < t.block_size)
    (i : Nat) (hi : i * t.block_size < n)
    (hp : i * t.block_size < t.size → BlockStorage.Present t.storage i) :
    BlockStorage.Present (t.truncate n).storage i := by
  rw [truncate_cases]
  by_cases h1 : n < t.size
  · rw [if_pos h1]
    show BlockStorage.Present (t.storage.truncate (cdN n t.block_size)) i
    rw [BlockStorage.truncate_present]
    exact ⟨(lt_cdN_iff hbs _ _).mpr hi, hp (by omega)⟩
  · rw [if_neg h1]
    by_cases h2 : t.size < n
    · rw [if_pos h2]
      show BlockStorage.Present (t.pad_file n).storage i
      by_cases hlt : i * t.block_size < t.size
      · exact pad_file_present_mono t n (hp hlt)
      · exact pad_file_present_new t n hbs i (by omega) hi
    · rw [if_neg h2]
      exact hp (by omega)

theorem InvB_init (f : Bytes) (c bs : Nat) (hbs : 0 < bs) : InvB (init f c bs) := by
  refine ⟨hbs, BlockStorage.MapOK_init f bs, le_refl c, ?_, ?_⟩
  · intro i h1 h2
    simp [init] at h1
  · intro i h1 h2
    simp [init, block_size_eq, BlockStorage.init] at h1 h2
    omega

theorem InvB_step (t t' : BlockCachedFile) (h : InvB t) (hs : StepB t t') :
    InvB t' := by
  obtain ⟨hbs, hmok, hcs, hinv3, hinv4⟩ := h
  cases hs with
  | write off data t2 hw =>
    obtain ⟨hb, hc, hf, hsz, hm, hp, hcov⟩ := write_ok_props t off data t' hbs hw
    have hszge : t.size ≤ t'.size := by
      rw [hsz]
      by_cases hl : data.length = 0
      · rw [if_pos hl]; omega
      · rw [if_neg hl]; omega
    refine ⟨by rw [hb]; exact hbs, hm hmok, by omega, ?_, ?_⟩
    · intro i h1 h2
      rw [hf] at h1
      rw [hb] at h2
      by_cases hi : i * t.block_size < t.size
      · exact hp i (hinv3 i h1 hi)
      · exact hcov i (by omega) h2
    · intro i h1 h2
      rw [hc] at h1
      rw [hb] at h1 h2
      by_cases hi : i * t.block_size < t.size
      · exact hp i (hinv4 i h1 hi)
      · exact hcov i (by omega) h2
  | trunc n =>
    obtain ⟨hf, hb, hsz, hcc⟩ := truncate_fields t n
    refine ⟨by rw [hb]; exact hbs, truncate_MapOK t n hmok,
      by rw [hcc, hsz]; omega, ?_, ?_⟩
    · intro i hi1 hi2
      rw [hf] at hi1
      rw [hb, hsz] at hi2
      exact truncate_present_of t n hbs i hi2 (fun hlt => hinv3 i hi1 hlt)
    · intro i hi1 hi2
      rw [hcc, hb] at hi1
      rw [hb, hsz] at hi2
      exact truncate_present_of t n hbs i hi2 (fun hlt => hinv4 i (by omega) hlt)
  | receive off dl =>
    obtain ⟨hpm, hmo, hsz, hcsz, hbsz, hfub⟩ := receive_cases t off dl
    refine ⟨by rw [hbsz]; exact hbs, hmo hmok, by rw [hcsz, hsz]; exact hcs, ?_, ?_⟩
    · intro i h1 h2
      rw [hbsz] at h2
      rw [hsz] at h2
      exact receive_inv3 t off dl hinv3 i h1 h2
    · intro i h1 h2
      rw [hcsz] at h1
      rw [hbsz] at h1 h2
      rw [hsz] at h2
      exact hpm i (hinv4 i h1 h2)

theorem InvB_reach (t : BlockCachedFile) (h : ReachB t) : InvB t := by
  induction h with
  | init f c bs hbs => exact InvB_init f c bs hbs
  | step t t' hre hs ih => exact InvB_step t t' ih hs

theorem StepB_fub_mono (t t' : BlockCachedFile) (hInv : InvB t) (hs : StepB t t') :
    t.first_uncached_block ≤ t'.first_uncached_block := by
  cases hs with
  | write off data t2 hw =>
    rw [(write_ok_props t off data t' hInv.1 hw).2.2.1]
  | trunc n =>
    rw [(truncate_fields t n).1]
  | receive off dl =>
    exact (receive_cases t off dl).2.2.2.2.2

end BlockCachedFile

/-- C3 counterexample: block size 4, initial size 8; after
`receive_cached_data(0, 8 bytes)` the watermark is 2, and `truncate(0)`
empties the block map without lowering `first_uncached_block`, so block
0 < 2 is not present afterwards: the unqualified presence claim fails. -/
theorem c3_counterexample :
    ((((BlockCachedFile.init [] 8 4).receive_cached_data 0
        [[1, 2, 3, 4, 5, 6, 7, 8]]).1).truncate 0).first_uncached_block = 2 ∧
    ¬ BlockStorage.Present
      ((((BlockCachedFile.init [] 8 4).receive_cached_data 0
        [[1, 2, 3, 4, 5, 6, 7, 8]]).1).truncate 0).storage 0 := by
  constructor
  · rfl
  · decide

/-- C3 (amended): for every reachable `BlockCachedFile`, every block index
below `first_uncached_block` that also lies below the file's block span
(`i * block_size < size`) is present in the storage, and
`first_uncached_block` never decreases across any single operation.
(After `truncate` the watermark may exceed the block span; indices beyond
it are exempt.) -/
theorem c3_watermark (t t' : BlockCachedFile) (h : BlockCachedFile.ReachB t)
    (hs : BlockCachedFile.StepB t t') :
    (∀ i, i < t.first_uncached_block → i * t.block_size < t.size →
      BlockStorage.Present t.storage i) ∧
    t.first_uncached_block ≤ t'.first_uncached_block := by
  have hInv := BlockCachedFile.InvB_reach t h
  exact ⟨hInv.2.2.2.1, BlockCachedFile.StepB_fub_mono t t' hInv hs⟩

theorem c3_watermark_witness :
    (∀ i, i < (((BlockCachedFile.init [] 8 4).receive_cached_data 0
        [[1, 2, 3, 4, 5, 6, 7, 8]]).1).first_uncached_block →
      i * (((BlockCachedFile.init [] 8 4).receive_cached_data 0
        [[1, 2, 3, 4, 5, 6, 7, 8]]).1).block_size
        < (((BlockCachedFile.init [] 8 4).receive_cached_data 0
        [[1, 2, 3, 4, 5, 6, 7, 8]]).1).size →
      BlockStorage.Present (((BlockCachedFile.init [] 8 4).receive_cached_data 0
        [[1, 2, 3, 4, 5, 6, 7, 8]]).1).storage i) ∧
    (((BlockCachedFile.init [] 8 4).receive_cached_data 0
        [[1, 2, 3, 4, 5, 6, 7, 8]]).1).first_uncached_block ≤
      ((((BlockCachedFile.init [] 8 4).receive_cached_data 0
        [[1, 2, 3, 4, 5, 6, 7, 8]]).1).truncate 0).first_uncached_block :=
  c3_watermark _ _
    (BlockCachedFile.ReachB.step _ _
      (BlockCachedFile.ReachB.init [] 8 4 (by decide))
      (BlockCachedFile.StepB.receive _ 0 [[1, 2, 3, 4, 5, 6, 7, 8]]))
    (BlockCachedFile.StepB.trunc _ 0)

/-- C4 counterexample: block size 4, `initial_cache_size = 2`, file
`[7, 9]`; `receive_cached_data(0, [5, 6])` commits the (EOF-promoted)
block 0 and advances the watermark to 1.  Then `pre_read(1, 5)` returns
`None`, the offset 1 is below `size = 2`, yet `read(1, 5)` returns the
single byte `[6]` — a short read with `offset < size`, refuting the
claimed equivalence. -/
theorem c4_counterexample :
    (((BlockCachedFile.init [7, 9] 2 4).receive_cached_data 0
      [[5, 6]]).1).pre_read 1 5 = none ∧
    1 < (((BlockCachedFile.init [7, 9] 2 4).receive_cached_data 0
      [[5, 6]]).1).size ∧
    (((BlockCachedFile.init [7, 9] 2 4).receive_cached_data 0
      [[5, 6]]).1).read 1 5 = .ok [6] ∧
    ([6] : Bytes).length < 5 := by
  refine ⟨by decide, by decide, by rfl, by decide⟩

/-- C4 (amended): for every reachable `BlockCachedFile`, when
`pre_read(offset, length)` returns `None`, `read(offset, length)` succeeds
and returns exactly `min(size - offset, length)` bytes; the read is short
(returns fewer than `length` bytes) exactly when the request is nonempty
and `offset + length` extends past `size` — not only when
`offset ≥ size` as claimed. -/
theorem c4_read_after_pre_read (t : BlockCachedFile) (off len : Nat)
    (hre : BlockCachedFile.ReachB t) (hpre : t.pre_read off len = none) :
    ∃ d, t.read off len = .ok d ∧ d.length = min (t.size - off) len ∧
      (d.length < len ↔ t.size < off + len ∧ 0 < len) := by
  obtain ⟨hbs, hmok, hcs, hinv3, hinv4⟩ := BlockCachedFile.InvB_reach t hre
  suffices hs : ∃ d, t.read off len = .ok d ∧ d.length = min (t.size - off) len by
    obtain ⟨d, hd, hlen⟩ := hs
    exact ⟨d, hd, hlen, by omega⟩
  apply BlockCachedFile.read_ok_of_present t off len hbs hmok
  intro hL0 i h1 h2
  by_cases hfub : i < t.first_uncached_block
  · exact hinv3 i hfub (by omega)
  by_cases hcache : t.cache_size ≤ i * t.block_size
  · exact hinv4 i hcache (by omega)
  rcases BlockCachedFile.pre_read_none_cases t off len hbs hpre with hzero | hscan
  · exfalso
    have hce : cdN t.cache_size t.block_size * t.block_size ≤ off := by omega
    have hcache2 : i * t.block_size < t.cache_size := by omega
    have hiled : i < cdN t.cache_size t.block_size := (lt_cdN_iff hbs _ _).mpr hcache2
    have hmul : (i + 1) * t.block_size
        ≤ cdN t.cache_size t.block_size * t.block_size :=
      Nat.mul_le_mul_right _ (by omega)
    have hdm := Nat.div_add_mod off t.block_size
    have hmul2 : (off / t.block_size) * t.block_size ≤ i * t.block_size :=
      Nat.mul_le_mul_right _ h1
    have hcm : t.block_size * (off / t.block_size)
        = (off / t.block_size) * t.block_size := Nat.mul_comm _ _
    have hx : (i + 1) * t.block_size = i * t.block_size + t.block_size := by ring
    have hmod : off % t.block_size < t.block_size := Nat.mod_lt _ hbs
    omega
  · have hccd : t.cache_size ≤ cdN t.cache_size t.block_size * t.block_size :=
      le_cdN_mul hbs _
    rcases hscan i (by omega) (by omega) with hp | hc
    · exact hp
    · omega

theorem c4_read_after_pre_read_witness :
    ∃ d, (((BlockCachedFile.init [7, 9] 2 4).receive_cached_data 0
        [[5, 6]]).1).read 1 5 = .ok d ∧
      d.length = min ((((BlockCachedFile.init [7, 9] 2 4).receive_cached_data 0
        [[5, 6]]).1).size - 1) 5 ∧
      (d.length < 5 ↔ (((BlockCachedFile.init [7, 9] 2 4).receive_cached_data 0
        [[5, 6]]).1).size < 1 + 5 ∧ 0 < 5) :=
  c4_read_after_pre_read _ 1 5
    (BlockCachedFile.ReachB.step _ _
      (BlockCachedFile.ReachB.init [7, 9] 2 4 (by decide))
      (BlockCachedFile.StepB.receive _ 0 [[5, 6]]))
    (by decide)

/-- C5 counterexample: block size 4, size = cache_size = 8;
`receive_cached_data(1, 7 bytes)` consumes all seven bytes (returning
offset 8 with nothing left over), so the range [1, 8) was delivered — but
only the full block 1 was committed; the partial start block 0 is
discarded.  A subsequent `pre_read(1, 7)` over that very range demands a
fetch of block 0 instead of returning `None`, with no intervening write. -/
theorem c5_counterexample :
    ((BlockCachedFile.init [] 8 4).receive_cached_data 1
      [[1, 2, 3], [4, 5, 6, 7]]).2 = (8, []) ∧
    (((BlockCachedFile.init [] 8 4).receive_cached_data 1
      [[1, 2, 3], [4, 5, 6, 7]]).1).pre_read 1 7 = some (0, 4) := by
  refine ⟨by rfl, by decide⟩

/-- C5 (amended): `receive_cached_data` commits exactly the full blocks of
the delivered range (its `mid` component `[a, b)`); partial boundary
blocks are dropped.  A subsequent `pre_read` over any subrange lying
within those committed full blocks returns `None`; over a subrange
touching a dropped partial block it may request a fetch (counterexample),
write invalidation aside. -/
theorem c5_pre_read_after_receive (t : BlockCachedFile) (off : Nat)
    (dl : List Bytes) (a b o2 l2 : Nat) (hbs : 0 < t.block_size)
    (hmid : (block_range off ((dl.map List.length).sum) t.block_size
      (some t.cache_size)).2.1 = some (a, b))
    (ha : a * t.block_size ≤ o2) (hb2 : o2 + l2 ≤ b * t.block_size) :
    ((t.receive_cached_data off dl).1).pre_read o2 l2 = none := by
  obtain ⟨hpm, hmo, hsz, hcsz, hbsz, hfub⟩ := BlockCachedFile.receive_cases t off dl
  apply BlockCachedFile.pre_read_none_of_present _ _ _ (by rw [hbsz]; exact hbs)
  intro i h1 h2
  rw [hbsz] at h1 h2
  apply BlockCachedFile.receive_mid_present t off dl a b hmid
  · have hdiv : a ≤ o2 / t.block_size := (Nat.le_div_iff_mul_le hbs).mpr ha
    omega
  · have hx : i * t.block_size < b * t.block_size := by omega
    exact Nat.lt_of_mul_lt_mul_right hx

theorem c5_pre_read_after_receive_witness :
    (((BlockCachedFile.init [] 8 4).receive_cached_data 0
      [[1, 2, 3, 4, 5, 6, 7, 8]]).1).pre_read 1 7 = none :=
  c5_pre_read_after_receive (BlockCachedFile.init [] 8 4) 0
    [[1, 2, 3, 4, 5, 6, 7, 8]] 0 2 1 7 (by decide) (by decide)
    (by decide) (by decide)

/-- C10: writing zero bytes at `offset ≤ size` returns the state entirely
unchanged; writing zero bytes past the end pads the file with `ZERO`
blocks over the grown region `[size, offset)` and sets the logical size
to `offset`, leaving `cache_size` and `first_uncached_block` unchanged. -/
theorem c10_empty_write (t : BlockCachedFile) (off : Nat)
    (hbs : 0 < t.block_size) :
    (off ≤ t.size → t.write off [] = .ok t) ∧
    (t.size < off →
      t.write off [] = .ok (t.pad_file off) ∧
      (t.pad_file off).size = off ∧
      (t.pad_file off).cache_size = t.cache_size ∧
      (t.pad_file off).first_uncached_block = t.first_uncached_block ∧
      (∀ i, t.size ≤ i * t.block_size → i * t.block_size < off →
        mapGet (t.pad_file off).storage.block_map i = BLOCK_ZERO)) := by
  constructor
  · intro h
    simp only [BlockCachedFile.write, List.length_nil]
    rw [if_neg (not_lt.mpr h)]
    rfl
  · intro h
    simp only [BlockCachedFile.write, List.length_nil]
    rw [if_pos h]
    obtain ⟨hc, hf, hsz⟩ := BlockCachedFile.pad_file_fields t off
    exact ⟨rfl, by rw [hsz]; omega, hc, hf,
      fun i h1 h2 => BlockCachedFile.pad_file_zero t off hbs i h1 h2⟩

theorem c10_empty_write_witness :
    (BlockCachedFile.init [1, 2, 3] 3 4).write 2 []
      = .ok (BlockCachedFile.init [1, 2, 3] 3 4) ∧
    (BlockCachedFile.init [1, 2, 3] 3 4).write 9 []
      = .ok ((BlockCachedFile.init [1, 2, 3] 3 4).pad_file 9) ∧
    ((BlockCachedFile.init [1, 2, 3] 3 4).pad_file 9).size = 9 ∧
    mapGet ((BlockCachedFile.init [1, 2, 3] 3 4).pad_file 9).storage.block_map 1
      = BLOCK_ZERO :=
  ⟨(c10_empty_write (BlockCachedFile.init [1, 2, 3] 3 4) 2 (by decide)).1 (by decide),
   ((c10_empty_write (BlockCachedFile.init [1, 2, 3] 3 4) 9 (by decide)).2
     (by decide)).1,
   ((c10_empty_write (BlockCachedFile.init [1, 2, 3] 3 4) 9 (by decide)).2
     (by decide)).2.1,
   ((c10_empty_write (BlockCachedFile.init [1, 2, 3] 3 4) 9 (by decide)).2
     (by decide)).2.2.2.2 1 (by decide) (by decide)⟩
